import Mathlib

/-!
# LSM major merge (`src/lsm/lsm_merge.c`)

A shallow embedding of `__lsm_merge_update_tree` and `__wt_lsm_major_merge`.

* Chunks live in a heap addressed by pointers (`Ptr`); the arrays
  `lsm_tree->chunk` and `lsm_tree->old_chunks` are lists of possibly-NULL
  pointers, one list entry per allocated array slot.
* C `int` values are `Int` (no wrap-around: signed overflow is undefined in C),
  except the id counter: `WT_ATOMIC_ADD` wraps in the 32 bits of an `int`.
  The `uint64_t` accumulator `record_count` wraps modulo `2^64`.
* A read through a NULL pointer, an array access outside the allocated slots,
  or a store through a pointer that was never assigned, has no value: the
  functions return `none` there.
* Every call into the rest of WiredTiger (cursors, bloom filters, allocation,
  metadata) is answered by an `Env`, which lists the return codes of the calls.
* One call runs alone: the spin lock calls have no effect on the state and are
  left out.  Diagnostic output has no effect beyond its return code.
* `insert_count` counts the iterations of the copy loop and is a natural number.
-/

namespace LsmMerge

/-- Address of a `WT_LSM_CHUNK`. -/
abbrev Ptr := Nat

/-- Modelled from the spec: the type `WT_LSM_CHUNK` is declared outside `src/`.
These are the fields `lsm_merge.c` reads or writes: the data source, the bloom
filter reference, the record count, the number of open cursors, the flags. -/
structure WT_LSM_CHUNK where
  uri : Option String
  bloom_uri : Option String
  count : Nat
  ncursor : Nat
  flags : Nat
deriving DecidableEq

/-- The chunk memory: what each chunk pointer points at. -/
abbrev Heap := Ptr → WT_LSM_CHUNK

/-- Modelled from the spec: the type `WT_LSM_TREE` is declared outside `src/`.
These are the fields `lsm_merge.c` reads or writes.
`chunk` and `old_chunks` hold one entry per allocated slot (`none` is NULL);
`old_alloc` is the byte size of the `old_chunks` allocation. -/
structure WT_LSM_TREE where
  chunk : List (Option Ptr)
  nchunks : Int
  old_chunks : List (Option Ptr)
  nold_chunks : Int
  old_avail : Int
  old_alloc : Nat
  dsk_gen : Nat
  last : Int
deriving DecidableEq

/-- One record delivered by the merge cursor: the return codes of the calls
made on it in the body of the copy loop (lines 151-157). -/
structure Item where
  get_key : Int := 0
  get_value : Int := 0
  insert : Int := 0
  bloom_insert : Int := 0
deriving DecidableEq

/-- The answers of the surrounding system to the calls made by one merge
attempt.  A return code of `0` is success.  `verbose_*` is `none` when the
`lsm` verbose category is off and the return code of `__wt_verbose` otherwise.
`stream` lists the records for which `src->next` returns 0 and `next_end` is
the non-zero code with which it ends the stream; `hazard_size` is the value of
`(int)S2C(session)->hazard_size`, `chunk_sz` that of `sizeof(*old_chunks)`;
`new_chunk` is the address `__wt_calloc_def` hands out and `bloom_name_buf` the
name `__wt_buf_steal` would return. -/
structure Env where
  hazard_size : Int := 1000
  chunk_sz : Nat := 8
  verbose_merging : Option Int := none
  scr_alloc : Int := 0
  bloom_name : Int := 0
  bloom_create : Int := 0
  open_src : Int := 0
  init_merge : Int := 0
  create_chunk : Int := 0
  dest_uri : String := "dest"
  open_dest : Int := 0
  stream : List Item := []
  next_end : Int := -31803
  verbose_bloom : Option Int := none
  src_close : Int := 0
  dest_close : Int := 0
  bloom_finalize : Int := 0
  bloom_close : Int := 0
  realloc_ret : Int := 0
  calloc_ret : Int := 0
  new_chunk : Ptr := 0
  bloom_name_buf : String := "bloom"
  meta_write : Int := 0

/-- Modelled from the spec: the constant `WT_NOTFOUND` is declared outside
`src/`; it is the distinguishable, non-zero "no work / end of stream" code. -/
def WT_NOTFOUND : Int := -31803

/-- Modelled from the spec: the flag bit `WT_LSM_CHUNK_ONDISK` is declared
outside `src/`; it is set once the chunk's data is durably on disk. -/
def WT_LSM_CHUNK_ONDISK : Nat := 1

/-- Modelled from the spec: the macro `F_ISSET(p, mask)` is declared outside
`src/`; it tests a flag, `(p->flags & mask) != 0`. -/
def F_ISSET (c : WT_LSM_CHUNK) (mask : Nat) : Bool := (c.flags &&& mask) != 0

/-- Modelled from the spec: the macro `F_SET(p, mask)` is declared outside
`src/`; it sets a flag, `p->flags |= mask`. -/
def F_SET (c : WT_LSM_CHUNK) (mask : Nat) : WT_LSM_CHUNK :=
  { c with flags := c.flags ||| mask }

/-- Modelled from the spec: the macro `WT_MIN(a, b)` is declared outside
`src/`; it is the minimum, `a < b ? a : b`. -/
def WT_MIN (a b : Int) : Int := if a < b then a else b

/-- Modelled from the spec: the macro `WT_MAX(a, b)` is declared outside
`src/`; it is the maximum, `a < b ? b : a`. -/
def WT_MAX (a b : Int) : Int := if a < b then b else a

/-- Modelled from the spec: the macro `WT_TRET(a)` is declared outside `src/`.
It keeps the first error: `ret` becomes `a` only when `a != 0` and `ret == 0`. -/
def WT_TRET (ret a : Int) : Int := if a ≠ 0 ∧ ret = 0 then a else ret

/-- Read `a[i]`; `none` when `i` is outside the allocated slots. -/
def load (a : List (Option Ptr)) (i : Int) : Option (Option Ptr) :=
  if 0 ≤ i then a.get? i.toNat else none

/-- Write `a[i] = v`; `none` when `i` is outside the allocated slots. -/
def store (a : List (Option Ptr)) (i : Int) (v : Option Ptr) :
    Option (List (Option Ptr)) :=
  if 0 ≤ i ∧ i.toNat < a.length then some (a.set i.toNat v) else none

/-- Read the chunk `a[i]` points at; `none` when `i` is outside the allocated
slots or `a[i]` is NULL. -/
def deref (h : Heap) (a : List (Option Ptr)) (i : Int) : Option WT_LSM_CHUNK :=
  match load a i with
  | some (some p) => some (h p)
  | _ => none

/-- The call `memmove(a + dst, a + src, n * sizeof(*a))`, in units of array
entries; `none` when `n` is negative or a range leaves the allocated slots. -/
def memmove (a : List (Option Ptr)) (dst src n : Int) : Option (List (Option Ptr)) :=
  if 0 ≤ n ∧ 0 ≤ dst ∧ 0 ≤ src ∧ src + n ≤ a.length ∧ dst + n ≤ a.length then
    some (a.take dst.toNat ++ (a.drop src.toNat).take n.toNat ++ a.drop (dst + n).toNat)
  else none

/-- The call `memset(a + dst, 0, n * sizeof(*a))`, in units of array entries;
`none` when `n` is negative or the range leaves the allocated slots. -/
def memset0 (a : List (Option Ptr)) (dst n : Int) : Option (List (Option Ptr)) :=
  if 0 ≤ n ∧ 0 ≤ dst ∧ dst + n ≤ a.length then
    some (a.take dst.toNat ++ List.replicate n.toNat none ++ a.drop (dst + n).toNat)
  else none

/-- Modelled from the spec: `__wt_realloc` is declared outside `src/`.  On
success the block holds the requested `bytes`, the part beyond the old block is
zero (newly grown slots are vacant), and the recorded size becomes `bytes`.
The result is the new array, `bytes / chunk_sz` slots long. -/
def wt_realloc (chunk_sz bytes : Nat) (a : List (Option Ptr)) : List (Option Ptr) :=
  (a ++ List.replicate (bytes / chunk_sz - a.length) none).take (bytes / chunk_sz)

/-- Modelled from the spec: `__wt_calloc_def` is declared outside `src/`; the
chunk it allocates is created empty, all fields zero. -/
def zero_chunk : WT_LSM_CHUNK :=
  { uri := none, bloom_uri := none, count := 0, ncursor := 0, flags := 0 }

/-- Heap write `*p = c`. -/
def Heap.put (h : Heap) (p : Ptr) (c : WT_LSM_CHUNK) : Heap :=
  fun q => if q = p then c else h q

/-- State of the gap-filling loop of `__lsm_merge_update_tree` (lines 34-39)
when it is left: the pool, `old_avail` and `j`. -/
structure Filled where
  old_chunks : List (Option Ptr)
  old_avail : Int
  j : Int
deriving DecidableEq

/-- The loop `for (i = j = 0; j < nchunks && i < nold_chunks; i++)` of lines
34-39.  The first argument is `nold_chunks - i`, the number of values of `i`
still to visit, so the test `i < nold_chunks` is the test that it is not zero. -/
def fill_gaps (chunk : List (Option Ptr)) (nchunks : Int) :
    Nat → Nat → Int → List (Option Ptr) → Int → Option Filled
  | 0, _, j, old, avail => some ⟨old, avail, j⟩
  | rem + 1, i, j, old, avail =>
    if j < nchunks then
      match old.get? i with
      | none => none
      | some (some _) => fill_gaps chunk nchunks rem (i + 1) j old avail
      | some none =>
        match load chunk j with
        | none => none
        | some p => fill_gaps chunk nchunks rem (i + 1) (j + 1) (old.set i p) (avail - 1)
    else some ⟨old, avail, j⟩

/-- What `__lsm_merge_update_tree` leaves behind: its return value, the tree,
the heap, and `*chunkp` (`none` when the function returned before assigning it). -/
structure Updated where
  ret : Int
  tree : WT_LSM_TREE
  heap : Heap
  chunkp : Option Ptr

/-- The pool growth of lines 23-32, entered when `nchunks > old_avail` and the
reallocation succeeds. -/
def grow_old (env : Env) (t : WT_LSM_TREE) (nchunks : Int) : WT_LSM_TREE :=
  let bytes := env.chunk_sz * (WT_MAX 10 (t.nold_chunks + 2 * nchunks)).toNat
  { t with
    old_chunks := wt_realloc env.chunk_sz bytes t.old_chunks
    old_alloc := bytes
    old_avail := t.old_avail + ((bytes / env.chunk_sz : Nat) : Int) - t.nold_chunks
    nold_chunks := ((bytes / env.chunk_sz : Nat) : Int) }

/-- Lines 33-55 of `__lsm_merge_update_tree`: fill the gaps of the pool, shift
the chunk array, allocate the new chunk.  `WT_ASSERT` is not compiled into
production builds and has no effect here. -/
def update_tail (env : Env) (t : WT_LSM_TREE) (h : Heap) (nchunks : Int) :
    Option Updated :=
  match fill_gaps t.chunk nchunks t.nold_chunks.toNat 0 0 t.old_chunks t.old_avail with
  | none => none
  | some f =>
    match memmove t.chunk 1 nchunks (t.nchunks - nchunks) with
    | none => none
    | some c1 =>
      let n1 := t.nchunks - (nchunks - 1)
      match memset0 c1 n1 (nchunks - 1) with
      | none => none
      | some c2 =>
        let t1 : WT_LSM_TREE :=
          { t with old_chunks := f.old_chunks, old_avail := f.old_avail,
                   chunk := c2, nchunks := n1 }
        if env.calloc_ret ≠ 0 then some ⟨env.calloc_ret, t1, h, none⟩
        else
          match store c2 0 (some env.new_chunk) with
          | none => none
          | some c3 =>
            some ⟨0, { t1 with chunk := c3, dsk_gen := t1.dsk_gen + 1 },
                  h.put env.new_chunk zero_chunk, some env.new_chunk⟩

/-- The function `__lsm_merge_update_tree` (lines 15-55). -/
def __lsm_merge_update_tree (env : Env) (t : WT_LSM_TREE) (h : Heap) (nchunks : Int) :
    Option Updated :=
  if nchunks > t.old_avail then
    if env.realloc_ret ≠ 0 then some ⟨env.realloc_ret, t, h, none⟩
    else update_tail env (grow_old env t nchunks) h nchunks
  else update_tail env t h nchunks

/-- The loop `while (nchunks > 1 && (!F_ISSET(chunk[nchunks - 1], ONDISK) ||
chunk[nchunks - 1]->ncursor > 0)) --nchunks;` of lines 105-108.  The argument
is the current `nchunks`; the loop only runs while it is above 1, so it is a
natural number there and the recursion follows the decrement. -/
def shrink (chunk : List (Option Ptr)) (h : Heap) : Nat → Option Nat
  | 0 => some 0
  | k + 1 =>
    if ((k : Int) + 1) > 1 then
      match deref h chunk ((k : Int) + 1 - 1) with
      | none => none
      | some c =>
        if !F_ISSET c WT_LSM_CHUNK_ONDISK || decide (c.ncursor > 0) then shrink chunk h k
        else some (k + 1)
    else some (k + 1)

/-- The loop of lines 105-108 started from an `int`: no iteration when
`nchunks <= 1`. -/
def shrink_span (chunk : List (Option Ptr)) (h : Heap) (nchunks : Int) : Option Int :=
  if nchunks > 1 then (shrink chunk h nchunks.toNat).map Int.ofNat else some nchunks

/-- The loop `for (record_count = 0, i = 0; i < nchunks; i++) record_count +=
chunk[i]->count;` of lines 109-110: the value of the `uint64_t record_count`
after the first `n` iterations. -/
def record_sum (chunk : List (Option Ptr)) (h : Heap) : Nat → Option Nat
  | 0 => some 0
  | i + 1 =>
    match record_sum chunk h i, deref h chunk i with
    | some s, some c => some ((s + c.count) % 2 ^ 64)
    | _, _ => none

/-- What the locked section of lines 103-111 computes. -/
structure Plan where
  nchunks : Int
  record_count : Nat
deriving DecidableEq

/-- Lines 103-111 of `__wt_lsm_major_merge`: clamp by half the hazard budget,
shrink past chunks that are not on disk or have cursors, sum the counts.
`env.hazard_size` is the value of `(int)S2C(session)->hazard_size`. -/
def plan (env : Env) (t : WT_LSM_TREE) (h : Heap) : Option Plan :=
  let nchunks := WT_MIN (Int.tdiv env.hazard_size 2) (t.nchunks - 1)
  match shrink_span t.chunk h nchunks with
  | none => none
  | some n =>
    match record_sum t.chunk h n.toNat with
    | none => none
    | some rc => some ⟨n, rc⟩

/-- How the copy loop of lines 150-158 is left. -/
inductive Flow where
  | err (ret : Int)
  | done (ret : Int) (insert_count : Nat)
deriving DecidableEq

/-- The loop `for (insert_count = 0; (ret = src->next(src)) == 0;
insert_count++)` of lines 150-158 over the records the cursor delivers:
`err` is a `goto err` from a `WT_ERR` in the body, `done` is the exit with the
non-zero `ret` of `src->next`. -/
def copy_loop (env : Env) (bloom : Bool) : List Item → Nat → Flow
  | [], n => Flow.done env.next_end n
  | it :: rest, n =>
    if it.get_key ≠ 0 then Flow.err it.get_key
    else if it.get_value ≠ 0 then Flow.err it.get_value
    else if it.insert ≠ 0 then Flow.err it.insert
    else if bloom = true ∧ it.bloom_insert ≠ 0 then Flow.err it.bloom_insert
    else copy_loop env bloom rest (n + 1)

/-- The code at the label `err` (lines 188-199): close what is still open and
return `ret`. -/
def cleanup (env : Env) (src dest bloom : Bool) (ret : Int) : Int :=
  let ret := if src then WT_TRET ret env.src_close else ret
  let ret := if dest then WT_TRET ret env.dest_close else ret
  if bloom then WT_TRET ret env.bloom_close else ret

/-- The locals that survive lines 122-173 when no step fails. -/
structure Copied where
  insert_count : Nat
  bloom : Bool
deriving DecidableEq

/-- Modelled from the spec: the macro `WT_VERBOSE_ERR` is declared outside
`src/`, and the spec has no diagnostic step.  The model follows the `WT_ERR`
family the macro is named after, as `WT_VERBOSE_RET` and `WT_VERBOSE_VOID`
follow `WT_RET` and `(void)`: `WT_ERR(a)` stores `a` in `ret` and jumps to `err`
when it is not 0 (lines 146 and 173 rely on the store).  With the category off
(`none`) `ret` keeps its value; with it on, `ret` becomes the code of
`__wt_verbose` (and a non-zero code jumps to `err`). -/
def verbose_ret (v : Option Int) (ret : Int) : Int := v.getD ret

/-- Modelled from the spec: the macro `WT_ERR_NOTFOUND_OK(a)` is declared
outside `src/`.  End-of-stream (`WT_NOTFOUND`) is turned into success, any
other non-zero code jumps to `err`: `none` is the jump, `some ret` the value of
`ret` with which the code goes on. -/
def WT_ERR_NOTFOUND_OK (a : Int) : Option Int :=
  if a ≠ 0 then (if a = WT_NOTFOUND then some 0 else none) else some a

/-- Lines 159-173 of `__wt_lsm_major_merge`, entered when the copy loop is
left with `ret = r` (the non-zero code of `src->next`): accept end-of-stream,
close the cursors, finalize and close the bloom filter, and set the local
`bloom` to NULL (line 171). -/
def finish (env : Env) (bloom : Bool) (r : Int) (insert_count : Nat) : Except Int Copied :=
  let r := verbose_ret env.verbose_bloom r
  if env.verbose_bloom.isSome = true ∧ r ≠ 0 then
    Except.error (cleanup env true true bloom r)
  else
    match WT_ERR_NOTFOUND_OK r with
    | none => Except.error (cleanup env true true bloom r)
    | some ret =>
      let ret := WT_TRET (WT_TRET ret env.src_close) env.dest_close
      let ret := if bloom then WT_TRET (WT_TRET ret env.bloom_finalize) env.bloom_close
                 else ret
      let bloom := if bloom then false else bloom
      if ret ≠ 0 then Except.error (cleanup env false false bloom ret)
      else Except.ok ⟨insert_count, bloom⟩

/-- Lines 132-173 of `__wt_lsm_major_merge`: open the merge cursor, create and
open the destination, copy, then `finish`.  `bloom` tells whether the local
`bloom` is non-NULL. -/
def copy_phase (env : Env) (bloom : Bool) : Except Int Copied :=
  if env.open_src ≠ 0 then Except.error (cleanup env false false bloom env.open_src)
  else if env.init_merge ≠ 0 then
    Except.error (cleanup env true false bloom env.init_merge)
  else if env.create_chunk ≠ 0 then
    Except.error (cleanup env true false bloom env.create_chunk)
  else if env.open_dest ≠ 0 then
    Except.error (cleanup env true false bloom env.open_dest)
  else
    match copy_loop env bloom env.stream 0 with
    | Flow.err e => Except.error (cleanup env true true bloom e)
    | Flow.done r insert_count => finish env bloom r insert_count

/-- Lines 122-173 of `__wt_lsm_major_merge`: create the bloom filter when
`record_count != 0`, then `copy_phase`.  `error r` is the value the function
returns when a step fails (directly through `WT_RET` at line 123, otherwise
through the label `err`); `ok` carries the locals `insert_count` and `bloom`
(is it non-NULL) at line 175. -/
def execute (env : Env) (record_count : Nat) : Except Int Copied :=
  if record_count ≠ 0 then
    if env.scr_alloc ≠ 0 then Except.error env.scr_alloc
    else if env.bloom_name ≠ 0 then
      Except.error (cleanup env false false false env.bloom_name)
    else if env.bloom_create ≠ 0 then
      Except.error (cleanup env false false false env.bloom_create)
    else copy_phase env true
  else copy_phase env false

/-- What one call of `__wt_lsm_major_merge` leaves behind: the return value,
the tree and the heap, and the locals `dest_id` (`none` before line 117),
`ret` as assigned at line 176 (`none` when line 176 is not reached) and `chunk`
(`none` while nothing has been assigned to it).  A call that returns after
line 176 has `chunk` assigned, since line 178 stores through it. -/
structure Merged where
  ret : Int
  tree : WT_LSM_TREE
  heap : Heap
  dest_id : Option Int
  update_ret : Option Int
  chunk : Option Ptr

/-- Lines 175-199 of `__wt_lsm_major_merge`: update the tree, fill in the new
chunk, write the metadata.  The value `ret` gets at line 176 is not tested.
When `__lsm_merge_update_tree` returns before assigning `*chunkp`, the store
of line 178 goes through the local `chunk`, which was never assigned: the
call has no value (`none`).  At `err` the locals `src`, `dest` and `bloom` are
NULL, so nothing is closed. -/
def install (env : Env) (t : WT_LSM_TREE) (h : Heap) (dest_id nchunks : Int)
    (cp : Copied) : Option Merged :=
  match __lsm_merge_update_tree env t h nchunks with
  | none => none
  | some u =>
    match u.chunkp with
    | none => none
    | some c =>
      let ch := { u.heap c with uri := some env.dest_uri }
      let ch := if cp.bloom then { ch with bloom_uri := some env.bloom_name_buf } else ch
      let ch := { ch with count := cp.insert_count }
      let heap : Heap := u.heap.put c (F_SET ch WT_LSM_CHUNK_ONDISK)
      let ret := env.meta_write
      some ⟨cleanup env false false false ret, u.tree, heap, some dest_id, some u.ret, some c⟩

/-- The value of an `int` expression after a wrap-around in 32 bits (two's
complement), as the atomic add of the id counter yields it. -/
def wrap_int (x : Int) : Int := (x + 2147483648) % 4294967296 - 2147483648

/-- Modelled from the spec: the macro `WT_ATOMIC_ADD(v, val)` is declared
outside `src/`; it increments the counter `v` by `val` ("allocate a new chunk
id by atomic increment of the tree's id counter") and its value is the
incremented counter, which line 117 stores in the `int dest_id`.  One call
runs alone, so the increment is an addition; it wraps from `INT_MAX` to
`INT_MIN` as an `int` does. -/
def WT_ATOMIC_ADD (v val : Int) : Int := wrap_int (v + val)

/-- The function `__wt_lsm_major_merge` (lines 61-200).
Modelled from the spec: the macro `WT_VERBOSE_RET` is declared outside `src/`;
it returns the code of `__wt_verbose` when the category is on and the code is
not 0. -/
def __wt_lsm_major_merge (env : Env) (t : WT_LSM_TREE) (h : Heap) : Option Merged :=
  let nchunks := t.nchunks - 1
  if nchunks ≤ 1 then some ⟨WT_NOTFOUND, t, h, none, none, none⟩
  else
    match plan env t h with
    | none => none
    | some p =>
      if p.nchunks ≤ 1 then some ⟨0, t, h, none, none, none⟩
      else
        let dest_id := WT_ATOMIC_ADD t.last 1
        let t1 : WT_LSM_TREE := { t with last := WT_ATOMIC_ADD t.last 1 }
        if env.verbose_merging.isSome = true ∧ env.verbose_merging.getD 0 ≠ 0 then
          some ⟨env.verbose_merging.getD 0, t1, h, some dest_id, none, none⟩
        else
          match execute env p.record_count with
          | Except.error e => some ⟨e, t1, h, some dest_id, none, none⟩
          | Except.ok cp => install env t1 h dest_id p.nchunks cp

/-! ## Predicates and running examples -/

/-- Number of vacant (NULL) entries among the first `nold_chunks` slots of the
retired pool. -/
def vacant (t : WT_LSM_TREE) : Nat :=
  (t.old_chunks.take t.nold_chunks.toNat).count none

/-- Three sealed chunks `1`, `2`, `3` with 100, 250 and 4 records, all on disk,
chunk `2` with two open cursors; chunk `4` is the newest chunk, not yet on
disk. -/
def ex_heap : Heap := fun p =>
  match p with
  | 1 => ⟨some "A", none, 100, 0, 1⟩
  | 2 => ⟨some "B", none, 250, 2, 1⟩
  | 3 => ⟨some "C", none, 4, 0, 1⟩
  | _ => ⟨none, none, 0, 0, 0⟩

/-- A tree with four live chunks (oldest first) and a full retired pool of two. -/
def ex_tree : WT_LSM_TREE :=
  { chunk := [some 1, some 2, some 3, some 4, none, none], nchunks := 4,
    old_chunks := [some 77, some 78], nold_chunks := 2, old_avail := 0, old_alloc := 16,
    dsk_gen := 5, last := 10 }

/-- The same live chunks over a retired pool of four slots, three of them vacant. -/
def ex_tree_vacant : WT_LSM_TREE :=
  { ex_tree with old_chunks := [none, some 77, none, none], nold_chunks := 4,
                 old_avail := 3, old_alloc := 32 }

/-- Every call succeeds, the cursor delivers two records, the new chunk is
allocated at address `9`. -/
def ex_env : Env := { stream := [{}, {}], new_chunk := 9 }

/-- The live list is well formed: the first `nchunks` slots of the chunk array
are allocated and none of them is NULL. -/
def live_ok (t : WT_LSM_TREE) : Prop :=
  t.nchunks ≤ t.chunk.length ∧ ∀ x ∈ t.chunk.take t.nchunks.toNat, x ≠ none

instance (t : WT_LSM_TREE) : Decidable (live_ok t) := by
  unfold live_ok; infer_instance

/-- The test the shrink loop applies to one chunk: `chunk[i]` is on disk and has
no open cursor. -/
def eligible (h : Heap) (chunk : List (Option Ptr)) (i : Int) : Bool :=
  match deref h chunk i with
  | some c => F_ISSET c WT_LSM_CHUNK_ONDISK && decide (c.ncursor = 0)
  | none => false

/-- The heap after the stores of lines 178-183 through `chunk`, for `chunk`
pointing at `c`. -/
def filled_heap (env : Env) (u : Updated) (cp : Copied) (c : Ptr) : Heap :=
  u.heap.put c (F_SET
    { (if cp.bloom then { { u.heap c with uri := some env.dest_uri } with
                            bloom_uri := some env.bloom_name_buf }
       else { u.heap c with uri := some env.dest_uri }) with
      count := cp.insert_count } WT_LSM_CHUNK_ONDISK)

/-- Two live chunks only: the sealed chunk `1` and the newest chunk `4`. -/
def ex_tree_two : WT_LSM_TREE :=
  { ex_tree with chunk := [some 1, some 4], nchunks := 2 }

/-- Three live chunks; the middle one, `4`, is not on disk yet. -/
def ex_tree_unwritten : WT_LSM_TREE :=
  { ex_tree with chunk := [some 1, some 4, some 5], nchunks := 3 }

/-- As `ex_env`, but `__wt_lsm_meta_write` fails with code 5. -/
def ex_env_meta_fail : Env := { ex_env with meta_write := 5 }

/-- As `ex_env`, but the allocation of the new chunk (`__wt_calloc_def`) fails
with code 12. -/
def ex_env_calloc_fail : Env := { ex_env with calloc_ret := 12 }

/-- As `ex_env`, but the growth of the retired pool (`__wt_realloc`) fails with
code 12. -/
def ex_env_realloc_fail : Env := { ex_env with realloc_ret := 12 }

/-- The retirement rule in the spec's words (4.5 step 1, "place each into the
first vacant slot"): the items go, in order, into the vacant slots of the pool,
lowest index first; occupied slots are kept, and items for which no vacant
slot is left are not placed. -/
def place_in_vacant : List (Option Ptr) → List (Option Ptr) → List (Option Ptr)
  | [], _ => []
  | some q :: pool, items => some q :: place_in_vacant pool items
  | none :: pool, [] => none :: pool
  | none :: pool, x :: items => x :: place_in_vacant pool items

/-- The indices of the vacant slots of a pool, ascending; `i` is the index of
the first slot of the list. -/
def vacant_from : Nat → List (Option Ptr) → List Nat
  | _, [] => []
  | i, none :: pool => i :: vacant_from (i + 1) pool
  | i, some _ :: pool => vacant_from (i + 1) pool

/-- The retired pool as the gap-filling loop meets it: grown by lines 23-32
when `nchunks > old_avail`, as it is otherwise. -/
def pool_before_fill (env : Env) (t : WT_LSM_TREE) (nchunks : Int) : WT_LSM_TREE :=
  if nchunks > t.old_avail then grow_old env t nchunks else t

/-- The sum of the `count` fields of the chunks a list of chunk pointers
refers to (a NULL entry counts 0), as a natural number. -/
def count_sum (h : Heap) (l : List (Option Ptr)) : Nat :=
  (l.map (fun x => match x with
    | some p => (h p).count
    | none => 0)).sum

/-- The chunk indices the loop of lines 105-108 reads, in the order it reads
them; the recursion is that of `shrink`. -/
def shrink_reads (chunk : List (Option Ptr)) (h : Heap) : Nat → List Int
  | 0 => []
  | k + 1 =>
    if ((k : Int) + 1) > 1 then
      ((k : Int) + 1 - 1) ::
        (match deref h chunk ((k : Int) + 1 - 1) with
          | none => []
          | some c =>
            if !F_ISSET c WT_LSM_CHUNK_ONDISK || decide (c.ncursor > 0) then
              shrink_reads chunk h k
            else [])
    else []

/-- The chunk indices the shrink loop of the planner reads for a tree. -/
def plan_reads (env : Env) (t : WT_LSM_TREE) (h : Heap) : List Int :=
  let nchunks := WT_MIN (Int.tdiv env.hazard_size 2) (t.nchunks - 1)
  if nchunks > 1 then shrink_reads t.chunk h nchunks.toNat else []

/-- A sequence of merge attempts on one tree, one after the other, each with
its own answers of the surrounding system: the destination ids allocated, in
order. -/
def attempts : List Env → WT_LSM_TREE → Heap → Option (List Int)
  | [], _, _ => some []
  | e :: es, t, h =>
    match __wt_lsm_major_merge e t h with
    | none => none
    | some r =>
      match attempts es r.tree r.heap with
      | none => none
      | some ids => some (r.dest_id.toList ++ ids)

/-- Six live chunks `1 .. 6`; in `ex_heap_sealed` the first five are on disk
with 10 records each and no cursor. -/
def ex_tree_six : WT_LSM_TREE :=
  { ex_tree with chunk := [some 1, some 2, some 3, some 4, some 5, some 6], nchunks := 6 }

/-- Chunks `1 .. 5` on disk, 10 records each, no cursor open. -/
def ex_heap_sealed : Heap := fun p =>
  if p < 6 then ⟨some "S", none, 10, 0, 1⟩ else ⟨none, none, 0, 0, 0⟩

/-- Every call succeeds, the hazard budget allows a span of 2, the new chunk is
allocated at address `p`. -/
def ex_env_span_two (p : Ptr) : Env := { ex_env with hazard_size := 4, new_chunk := p }

/-- The tree `ex_tree_six` with its id counter one below `INT_MAX`. -/
def ex_tree_six_last_ids : WT_LSM_TREE := { ex_tree_six with last := 2147483646 }

/-- Three sealed chunks `1`, `2`, `3` on disk, no cursor open, with
`2^64 - 1`, 2 and 5 records. -/
def ex_heap_wide : Heap := fun p =>
  match p with
  | 1 => ⟨some "A", none, 18446744073709551615, 0, 1⟩
  | 2 => ⟨some "B", none, 2, 0, 1⟩
  | 3 => ⟨some "C", none, 5, 0, 1⟩
  | _ => ⟨none, none, 0, 0, 0⟩

/-- As `ex_env`, with the `lsm` verbose category on (`__wt_verbose` returns 0)
and a cursor that fails with code 5 after its two records. -/
def ex_env_cursor_fails_verbose : Env :=
  { ex_env with verbose_bloom := some 0, next_end := 5 }

/-- The first failure in a list of return codes, in the spec's words ("all
failures ... abort the in-progress merge ... and return the error"): the
first code that is not 0, if any. -/
def first_error : List Int → Option Int
  | [] => none
  | e :: es => if e ≠ 0 then some e else first_error es

/-- The return codes of the calls made for one record of the cursor, in the
order of lines 151-157. -/
def item_steps (bloom : Bool) (it : Item) : List Int :=
  [it.get_key, it.get_value, it.insert] ++ (if bloom then [it.bloom_insert] else [])

/-- The return codes of the steps of the execution phase (lines 122-172), in
the order the code makes the calls; end-of-stream from the cursor
(`WT_NOTFOUND`) counts as success. -/
def exec_steps (env : Env) (record_count : Nat) : List Int :=
  (if record_count ≠ 0 then [env.scr_alloc, env.bloom_name, env.bloom_create] else []) ++
  [env.open_src, env.init_merge, env.create_chunk, env.open_dest] ++
  (env.stream.map (item_steps (decide (record_count ≠ 0)))).flatten ++
  [if env.next_end = WT_NOTFOUND then 0 else env.next_end] ++
  [env.src_close, env.dest_close] ++
  (if record_count ≠ 0 then [env.bloom_finalize, env.bloom_close] else [])

/-! ## The retired pool -/

theorem take_succ_drop_count (old : List (Option Ptr)) (i rem : Nat) (x : Option Ptr)
    (hx : old.get? i = some x) :
    ((old.drop i).take (rem + 1)).count none
      = ((old.drop (i + 1)).take rem).count none + (if x = none then 1 else 0) := by
  have hi : i < old.length := by
    by_contra hc
    rw [List.get?_eq_none.mpr (by omega)] at hx
    cases hx
  have hxe : old[i] = x := by
    rw [List.get?_eq_getElem?, List.getElem?_eq_getElem hi] at hx
    exact Option.some.inj hx
  rw [List.drop_eq_getElem_cons hi, List.take_succ_cons, List.count_cons, hxe]
  cases x <;> simp

/-- The gap-filling loop never faults on a pool with `nold_chunks` allocated
slots, keeps the pool length, lowers `old_avail` by the number of chunks it
placed, and places all `nchunks` of them when enough slots are vacant. -/
theorem fill_gaps_spec (chunk : List (Option Ptr)) (nchunks : Int)
    (hc : nchunks ≤ chunk.length) :
    ∀ (rem i : Nat) (j : Int) (old : List (Option Ptr)) (avail : Int),
      0 ≤ j → i + rem ≤ old.length →
      ∃ f, fill_gaps chunk nchunks rem i j old avail = some f ∧
        f.old_chunks.length = old.length ∧
        f.old_avail + f.j = avail + j ∧
        j ≤ f.j ∧
        (j ≤ nchunks → f.j ≤ nchunks) ∧
        (j ≤ nchunks → nchunks - j ≤ ((old.drop i).take rem).count none →
          f.j = nchunks) := by
  intro rem
  induction rem with
  | zero =>
    intro i j old avail hj _
    refine ⟨⟨old, avail, j⟩, rfl, rfl, rfl, le_refl _, fun h => h, ?_⟩
    intro h1 h2
    simp at h2
    show j = nchunks
    omega
  | succ rem ih =>
    intro i j old avail hj hlen
    unfold fill_gaps
    by_cases hjn : j < nchunks
    · rw [if_pos hjn]
      have hi : i < old.length := by omega
      have hget : old.get? i = some old[i] := by
        rw [List.get?_eq_getElem?, List.getElem?_eq_getElem hi]
      cases hx : old[i] with
      | some q =>
        rw [hx] at hget
        rw [hget]
        obtain ⟨f, hf, h1, h2, h3, h4, h5⟩ := ih (i + 1) j old avail hj (by omega)
        refine ⟨f, hf, h1, h2, h3, h4, ?_⟩
        intro hle hcnt
        apply h5 hle
        rw [take_succ_drop_count old i rem _ hget] at hcnt
        simpa using hcnt
      | none =>
        rw [hx] at hget
        rw [hget]
        have hload : load chunk j = some (chunk.get ⟨j.toNat, by omega⟩) := by
          unfold load
          rw [if_pos hj, List.get?_eq_getElem?, List.getElem?_eq_getElem (by omega)]
          rfl
        simp only [hload]
        obtain ⟨f, hf, h1, h2, h3, h4, h5⟩ :=
          ih (i + 1) (j + 1) (old.set i (chunk.get ⟨j.toNat, by omega⟩)) (avail - 1)
            (by omega) (by rw [List.length_set]; omega)
        refine ⟨f, hf, ?_, ?_, ?_, ?_, ?_⟩
        · rw [h1, List.length_set]
        · omega
        · omega
        · intro _; exact h4 (by omega)
        · intro hle hcnt
          apply h5 (by omega)
          rw [take_succ_drop_count old i rem _ hget] at hcnt
          rw [List.drop_set_of_lt _ _ (by omega)]
          simp at hcnt
          omega
    · rw [if_neg hjn]
      refine ⟨⟨old, avail, j⟩, rfl, rfl, rfl, le_refl _, fun h => h, ?_⟩
      intro h1 _
      show j = nchunks
      omega

/-! ## The chunk array after the shift of lines 44-50 -/

theorem memmove_live (a : List (Option Ptr)) (n s : Nat)
    (h1 : 1 ≤ s) (h2 : s ≤ n) (h3 : n ≤ a.length) :
    ∃ c1, memmove a 1 s ((n : Int) - s) = some c1 ∧ c1.length = a.length ∧
      c1.take (n - s + 1) = a.take 1 ++ (a.drop s).take (n - s) := by
  have e1 : ((n : Int) - s).toNat = n - s := by omega
  have e2 : ((1 : Int) + ((n : Int) - s)).toNat = 1 + (n - s) := by omega
  have e6 : (1 : Int).toNat = 1 := rfl
  have e7 : (s : Int).toNat = s := by omega
  refine ⟨a.take 1 ++ (a.drop s).take (n - s) ++ a.drop (1 + (n - s)), ?_, ?_, ?_⟩
  · unfold memmove
    rw [if_pos (by omega), e1, e2, e6, e7]
  · simp only [List.length_append, List.length_take, List.length_drop]
    omega
  · rw [List.take_append_of_le_length (by
      simp only [List.length_append, List.length_take, List.length_drop]; omega)]
    apply List.take_of_length_le
    simp only [List.length_append, List.length_take, List.length_drop]
    omega

theorem memset0_live (c1 : List (Option Ptr)) (n s : Nat)
    (h1 : 1 ≤ s) (h2 : s ≤ n) (h3 : n ≤ c1.length) :
    ∃ c2, memset0 c1 ((n : Int) - ((s : Int) - 1)) ((s : Int) - 1) = some c2 ∧
      c2.length = c1.length ∧ c2.take (n - s + 1) = c1.take (n - s + 1) := by
  have e3 : ((n : Int) - ((s : Int) - 1)).toNat = n - s + 1 := by omega
  have e4 : ((s : Int) - 1).toNat = s - 1 := by omega
  have e5 : ((n : Int) - ((s : Int) - 1) + ((s : Int) - 1)).toNat = n := by omega
  refine ⟨c1.take (n - s + 1) ++ List.replicate (s - 1) none ++ c1.drop n, ?_, ?_, ?_⟩
  · unfold memset0
    rw [if_pos (by omega), e3, e4, e5]
  · simp only [List.length_append, List.length_take, List.length_drop,
      List.length_replicate]
    omega
  · rw [List.append_assoc, List.take_append_of_le_length (by
      simp only [List.length_take]; omega)]
    apply List.take_of_length_le
    simp only [List.length_take]
    omega

/-- The first `n - s + 1` entries of the chunk array after `memmove`, `memset`
and the store of the new chunk at index 0: the new chunk followed by the
entries `s .. n - 1` of the old array. -/
theorem shift_live (a : List (Option Ptr)) (n s : Nat) (x : Option Ptr)
    (h1 : 1 ≤ s) (h2 : s ≤ n) (h3 : n ≤ a.length) :
    ∃ c1 c2 c3, memmove a 1 s ((n : Int) - s) = some c1 ∧
      memset0 c1 ((n : Int) - ((s : Int) - 1)) ((s : Int) - 1) = some c2 ∧
      store c2 0 x = some c3 ∧
      c2.length = a.length ∧ c3.length = a.length ∧
      c3.take (n - s + 1) = x :: (a.drop s).take (n - s) := by
  obtain ⟨c1, hm, hl1, hp1⟩ := memmove_live a n s h1 h2 h3
  obtain ⟨c2, hs, hl2, hp2⟩ := memset0_live c1 n s h1 h2 (by omega)
  have hst : store c2 0 x = some (c2.set 0 x) := by
    unfold store
    rw [if_pos ⟨le_refl _, by simp; omega⟩]
    rfl
  refine ⟨c1, c2, c2.set 0 x, hm, hs, hst, by omega, by rw [List.length_set]; omega, ?_⟩
  rw [hp1] at hp2
  cases a with
  | nil => simp at h3; omega
  | cons a0 rest =>
    cases c2 with
    | nil => simp at hl2; omega
    | cons b0 rest2 =>
      simp only [List.take_succ_cons, List.take_zero, List.cons_append, List.nil_append,
        List.set_cons_zero] at hp2 ⊢
      simp only [List.cons.injEq] at hp2 ⊢
      exact ⟨trivial, hp2.2⟩

/-! ## `__lsm_merge_update_tree` -/

/-- Lines 33-55 on a tree whose arrays hold the slots the counters promise:
the code runs to the end without leaving the arrays, and this is the state it
leaves behind. -/
theorem update_tail_spec (env : Env) (t : WT_LSM_TREE) (h : Heap) (s : Int)
    (h1 : 1 ≤ s) (h2 : s ≤ t.nchunks) (h3 : t.nchunks ≤ t.chunk.length)
    (h5 : t.nold_chunks ≤ t.old_chunks.length) :
    ∃ u f, fill_gaps t.chunk s t.nold_chunks.toNat 0 0 t.old_chunks t.old_avail = some f ∧
      update_tail env t h s = some u ∧
      u.tree.old_chunks = f.old_chunks ∧ u.tree.old_avail = f.old_avail ∧
      u.tree.nold_chunks = t.nold_chunks ∧ u.tree.old_alloc = t.old_alloc ∧
      u.tree.last = t.last ∧
      u.tree.nchunks = t.nchunks - (s - 1) ∧ u.tree.chunk.length = t.chunk.length ∧
      (env.calloc_ret ≠ 0 → u.ret = env.calloc_ret ∧ u.chunkp = none ∧ u.heap = h ∧
        u.tree.dsk_gen = t.dsk_gen) ∧
      (env.calloc_ret = 0 → u.ret = 0 ∧ u.chunkp = some env.new_chunk ∧
        u.heap = h.put env.new_chunk zero_chunk ∧ u.tree.dsk_gen = t.dsk_gen + 1 ∧
        u.tree.chunk.take (t.nchunks - s + 1).toNat
          = some env.new_chunk :: (t.chunk.drop s.toNat).take (t.nchunks - s).toNat) := by
  obtain ⟨f, hf, -, -, -, -, -⟩ :=
    fill_gaps_spec t.chunk s (by omega) t.nold_chunks.toNat 0 0 t.old_chunks t.old_avail
      (le_refl _) (by omega)
  obtain ⟨s', rfl⟩ := Int.eq_ofNat_of_zero_le (by omega : 0 ≤ s)
  obtain ⟨n', hn'⟩ := Int.eq_ofNat_of_zero_le (by omega : 0 ≤ t.nchunks)
  obtain ⟨c1, c2, c3, hm, hs, hst, hl2, hl3, hp3⟩ :=
    shift_live t.chunk n' s' (some env.new_chunk) (by omega) (by omega) (by omega)
  have e1 : ((n' : Int) - (s' : Int) + 1).toNat = n' - s' + 1 := by omega
  have e2 : ((n' : Int) - (s' : Int)).toNat = n' - s' := by omega
  have e3 : ((s' : Nat) : Int).toNat = s' := by omega
  by_cases hc : env.calloc_ret = 0
  · refine ⟨Updated.mk 0
              { t with old_chunks := f.old_chunks, old_avail := f.old_avail,
                       chunk := c3, nchunks := t.nchunks - ((s' : Int) - 1),
                       dsk_gen := t.dsk_gen + 1 }
              (h.put env.new_chunk zero_chunk) (some env.new_chunk), f, hf, ?_,
            rfl, rfl, rfl, rfl, rfl, rfl, hl3, fun hne => absurd hc hne, fun _ => ?_⟩
    · unfold update_tail
      simp only [hf, hn', hm, hs, hst, hc, ne_eq, not_true_eq_false, if_false]
    · refine ⟨rfl, rfl, rfl, rfl, ?_⟩
      show c3.take (t.nchunks - (s' : Int) + 1).toNat = _
      rw [hn', e1, e2, e3]
      exact hp3
  · refine ⟨Updated.mk env.calloc_ret
              { t with old_chunks := f.old_chunks, old_avail := f.old_avail,
                       chunk := c2, nchunks := t.nchunks - ((s' : Int) - 1) } h none, f, hf, ?_,
            rfl, rfl, rfl, rfl, rfl, rfl, hl2, fun _ => ⟨rfl, rfl, rfl, rfl⟩,
            fun h0 => absurd h0 hc⟩
    unfold update_tail
    simp only [hf, hn', hm, hs, hc, ne_eq, not_false_eq_true, if_true]

/-- The pool after the growth of lines 23-32 is `WT_MAX(10, nold_chunks + 2 *
nchunks)` slots long, as is the list that models it. -/
theorem grow_old_spec (env : Env) (t : WT_LSM_TREE) (s : Int) (hsz : 0 < env.chunk_sz) :
    (grow_old env t s).nold_chunks = WT_MAX 10 (t.nold_chunks + 2 * s) ∧
    ((grow_old env t s).old_chunks.length : Int) = WT_MAX 10 (t.nold_chunks + 2 * s) ∧
    (grow_old env t s).old_avail
      = t.old_avail + WT_MAX 10 (t.nold_chunks + 2 * s) - t.nold_chunks ∧
    (grow_old env t s).chunk = t.chunk ∧ (grow_old env t s).nchunks = t.nchunks ∧
    (grow_old env t s).dsk_gen = t.dsk_gen ∧ (grow_old env t s).last = t.last := by
  have hpos : 0 ≤ WT_MAX 10 (t.nold_chunks + 2 * s) := by
    unfold WT_MAX; split <;> omega
  have hdiv : env.chunk_sz * (WT_MAX 10 (t.nold_chunks + 2 * s)).toNat / env.chunk_sz
      = (WT_MAX 10 (t.nold_chunks + 2 * s)).toNat := Nat.mul_div_cancel_left _ hsz
  refine ⟨?_, ?_, ?_, rfl, rfl, rfl, rfl⟩
  · show ((env.chunk_sz * (WT_MAX 10 (t.nold_chunks + 2 * s)).toNat / env.chunk_sz : Nat) : Int)
        = _
    rw [hdiv]; omega
  · show (((wt_realloc env.chunk_sz (env.chunk_sz * (WT_MAX 10 (t.nold_chunks + 2 * s)).toNat)
        t.old_chunks).length : Nat) : Int) = _
    unfold wt_realloc
    rw [hdiv, List.length_take, List.length_append, List.length_replicate]
    omega
  · show t.old_avail + ((env.chunk_sz * (WT_MAX 10 (t.nold_chunks + 2 * s)).toNat
        / env.chunk_sz : Nat) : Int) - t.nold_chunks = _
    rw [hdiv]; omega

/-- After the growth of lines 23-32 the pool has exactly the slots its length
counter says, whatever the slot size. -/
theorem grow_old_pool (env : Env) (t : WT_LSM_TREE) (s : Int) :
    ((grow_old env t s).old_chunks.length : Int) = (grow_old env t s).nold_chunks := by
  show (((wt_realloc env.chunk_sz (env.chunk_sz * (WT_MAX 10 (t.nold_chunks + 2 * s)).toNat)
      t.old_chunks).length : Nat) : Int)
    = ((env.chunk_sz * (WT_MAX 10 (t.nold_chunks + 2 * s)).toNat / env.chunk_sz : Nat) : Int)
  unfold wt_realloc
  rw [List.length_take, List.length_append, List.length_replicate]
  omega

/-! ## Claims about `__lsm_merge_update_tree` -/

/-- C9: on a retired pool whose `old_avail` equals its number of vacant slots
`M`, an update that retires `N <= M` chunks runs to the end, leaves `old_avail`
at `M - N` and does not change the pool length `nold_chunks`. -/
theorem C9_vacant_slots_reused (env : Env) (t : WT_LSM_TREE) (h : Heap) (N : Int)
    (hN : 1 ≤ N) (hNn : N ≤ t.nchunks) (hlen : t.nchunks ≤ t.chunk.length)
    (hpool : t.nold_chunks ≤ t.old_chunks.length)
    (hav : t.old_avail = vacant t) (hNM : N ≤ t.old_avail) :
    ∃ u, __lsm_merge_update_tree env t h N = some u ∧
      u.tree.old_avail = t.old_avail - N ∧
      u.tree.nold_chunks = t.nold_chunks ∧
      u.tree.old_chunks.length = t.old_chunks.length := by
  obtain ⟨u, f, hf, hu, ho, ha, hn, -⟩ := update_tail_spec env t h N hN hNn hlen hpool
  obtain ⟨f2, hf2, hl, hsum, -, -, hall⟩ :=
    fill_gaps_spec t.chunk N (by omega) t.nold_chunks.toNat 0 0 t.old_chunks t.old_avail
      (le_refl _) (by omega)
  rw [hf] at hf2
  cases hf2
  have hj : f.j = N := by
    apply hall (by omega)
    rw [List.drop_zero]
    unfold vacant at hav
    omega
  refine ⟨u, ?_, ?_, hn, ?_⟩
  · unfold __lsm_merge_update_tree
    rw [if_neg (by omega)]
    exact hu
  · rw [ha]; omega
  · rw [ho]; exact hl

theorem C9_vacant_slots_reused_witness :
    ∃ u, __lsm_merge_update_tree ex_env ex_tree_vacant ex_heap 3 = some u ∧
      u.tree.old_avail = ex_tree_vacant.old_avail - 3 ∧
      u.tree.nold_chunks = ex_tree_vacant.nold_chunks ∧
      u.tree.old_chunks.length = ex_tree_vacant.old_chunks.length :=
  C9_vacant_slots_reused ex_env ex_tree_vacant ex_heap 3 (by decide) (by decide) (by decide)
    (by decide) (by decide) (by decide)

/-- The function `__lsm_merge_update_tree` on a tree whose arrays hold the
slots the counters promise: it runs to the end without leaving the arrays;
when it returns 0 it has assigned the new chunk to `*chunkp`, bumped `dsk_gen`
and put the new chunk in front of the entries `s .. n - 1` of the old chunk
array; when it returns an error, `*chunkp` is unassigned and `dsk_gen` and
the heap are unchanged. -/
theorem update_tree_spec (env : Env) (t : WT_LSM_TREE) (h : Heap) (s : Int)
    (h1 : 1 ≤ s) (h2 : s ≤ t.nchunks) (h3 : t.nchunks ≤ t.chunk.length)
    (h5 : t.nold_chunks ≤ t.old_chunks.length) :
    ∃ u, __lsm_merge_update_tree env t h s = some u ∧ u.tree.last = t.last ∧
      (u.ret ≠ 0 → u.chunkp = none ∧ u.heap = h ∧ u.tree.dsk_gen = t.dsk_gen) ∧
      (u.ret = 0 → u.chunkp = some env.new_chunk ∧
        u.heap = h.put env.new_chunk zero_chunk ∧ u.tree.dsk_gen = t.dsk_gen + 1 ∧
        u.tree.nchunks = t.nchunks - s + 1 ∧
        u.tree.chunk.take (t.nchunks - s + 1).toNat
          = some env.new_chunk :: (t.chunk.drop s.toNat).take (t.nchunks - s).toNat) := by
  have tail : ∀ t2 : WT_LSM_TREE, t2.chunk = t.chunk → t2.nchunks = t.nchunks →
      t2.dsk_gen = t.dsk_gen → t2.last = t.last →
      (t2.nold_chunks : Int) ≤ t2.old_chunks.length →
      ∃ u, update_tail env t2 h s = some u ∧ u.tree.last = t.last ∧
        (u.ret ≠ 0 → u.chunkp = none ∧ u.heap = h ∧ u.tree.dsk_gen = t.dsk_gen) ∧
        (u.ret = 0 → u.chunkp = some env.new_chunk ∧
          u.heap = h.put env.new_chunk zero_chunk ∧ u.tree.dsk_gen = t.dsk_gen + 1 ∧
          u.tree.nchunks = t.nchunks - s + 1 ∧
          u.tree.chunk.take (t.nchunks - s + 1).toNat
            = some env.new_chunk :: (t.chunk.drop s.toNat).take (t.nchunks - s).toNat) := by
    intro t2 e1 e2 e3 e4 hp
    obtain ⟨u, f, -, hu, -, -, -, -, hlast, hn, -, hbad, hok⟩ :=
      update_tail_spec env t2 h s h1 (by rw [e2]; exact h2) (by rw [e1, e2]; exact h3) hp
    refine ⟨u, hu, by rw [hlast, e4], ?_, ?_⟩
    · intro hne
      by_cases hc : env.calloc_ret = 0
      · exact absurd (hok hc).1 hne
      · obtain ⟨-, b, c, d⟩ := hbad hc
        exact ⟨b, c, by rw [d, e3]⟩
    · intro h0
      by_cases hc : env.calloc_ret = 0
      · obtain ⟨-, b, c, d, e⟩ := hok hc
        refine ⟨b, c, by rw [d, e3], by rw [hn, e2]; omega, ?_⟩
        rw [e1, e2] at e
        exact e
      · have := (hbad hc).1
        rw [h0] at this
        exact absurd this.symm hc
  unfold __lsm_merge_update_tree
  by_cases hg : s > t.old_avail
  · rw [if_pos hg]
    by_cases hre : env.realloc_ret = 0
    · rw [if_neg (by simp [hre])]
      exact tail (grow_old env t s) rfl rfl rfl rfl (by rw [grow_old_pool])
    · rw [if_pos hre]
      exact ⟨_, rfl, rfl, fun _ => ⟨rfl, rfl, rfl⟩, fun h0 => absurd h0 hre⟩
  · rw [if_neg hg]
    exact tail t rfl rfl rfl rfl h5

/-- C7 (as stated, refuted): after a successful update with span 2 of the live
list `[1, 2, 3, 4, 5, 6]` the live list is `[9, 3, 4, 5, 6]` with `9` the new
chunk.  Read with index 0 as the head: index 0 holds the new chunk, not the
chunk that was at index 0, and index 1 holds the unmerged chunk `3`.  Read
from the newest end (the head is the last entry `6`): the head stays, but
the slot next to it holds the unmerged chunk `5`, not the new chunk, which
is 4 slots away. -/
theorem C7_counterexample :
    (__lsm_merge_update_tree (ex_env_span_two 9) ex_tree_six ex_heap_sealed 2).map
        (fun u => (u.ret, u.chunkp, u.tree.chunk.take u.tree.nchunks.toNat))
      = some (0, some 9, [some 9, some 3, some 4, some 5, some 6]) ∧
    ¬ (([some 9, some 3, some 4, some 5, some 6] : List (Option Ptr)).get? 0
          = ex_tree_six.chunk.get? 0 ∧
       ([some 9, some 3, some 4, some 5, some 6] : List (Option Ptr)).get? 1
          = some (some 9)) ∧
    ¬ (([some 9, some 3, some 4, some 5, some 6] : List (Option Ptr)).reverse.get? 0
          = (ex_tree_six.chunk.take ex_tree_six.nchunks.toNat).reverse.get? 0 ∧
       ([some 9, some 3, some 4, some 5, some 6] : List (Option Ptr)).reverse.get? 1
          = some (some 9)) := by
  refine ⟨by decide, by decide, by decide⟩

/-- C7 (amended): every update with span `s` (`1 <= s <= n`) runs to the end,
and when it succeeds the live list is the new chunk at index 0 followed by the
`n - s` chunks that were not merged, in their old order; when `s < n` (as in
every merge, whose span is at most `n - 1`) the newest chunk, the last of the
list, stays last. -/
theorem C7_new_chunk_leads_live_list (env : Env) (t : WT_LSM_TREE) (h : Heap) (s : Int)
    (h1 : 1 ≤ s) (h2 : s ≤ t.nchunks) (h3 : t.nchunks ≤ t.chunk.length)
    (h5 : t.nold_chunks ≤ t.old_chunks.length) :
    ∃ u, __lsm_merge_update_tree env t h s = some u ∧
      (u.ret = 0 →
        u.tree.nchunks = t.nchunks - s + 1 ∧
        u.tree.chunk.take u.tree.nchunks.toNat
          = some env.new_chunk :: (t.chunk.take t.nchunks.toNat).drop s.toNat ∧
        (s < t.nchunks →
          u.tree.chunk.get? (u.tree.nchunks - 1).toNat
            = t.chunk.get? (t.nchunks - 1).toNat)) := by
  obtain ⟨u, hu, -, -, hok⟩ := update_tree_spec env t h s h1 h2 h3 h5
  refine ⟨u, hu, fun h0 => ?_⟩
  obtain ⟨-, -, -, hn, hl⟩ := hok h0
  refine ⟨hn, ?_, fun hlt => ?_⟩
  · rw [hn, hl, List.drop_take]
    congr 2
    omega
  · have e1 : (u.tree.nchunks - 1).toNat < (t.nchunks - s + 1).toNat := by omega
    rw [List.get?_eq_getElem?, ← List.getElem?_take_of_lt e1, hl]
    have e2 : (u.tree.nchunks - 1).toNat = ((t.nchunks - s).toNat - 1) + 1 := by omega
    rw [e2, List.getElem?_cons_succ,
      List.getElem?_take_of_lt (by omega), List.getElem?_drop]
    have e3 : s.toNat + ((t.nchunks - s).toNat - 1) = (t.nchunks - 1).toNat := by omega
    rw [e3, List.get?_eq_getElem?]

theorem C7_new_chunk_leads_live_list_witness :
    ∃ u, __lsm_merge_update_tree ex_env ex_tree ex_heap 3 = some u ∧
      (u.ret = 0 →
        u.tree.nchunks = ex_tree.nchunks - 3 + 1 ∧
        u.tree.chunk.take u.tree.nchunks.toNat
          = some ex_env.new_chunk :: (ex_tree.chunk.take ex_tree.nchunks.toNat).drop (3 : Int).toNat ∧
        (3 < ex_tree.nchunks →
          u.tree.chunk.get? (u.tree.nchunks - 1).toNat
            = ex_tree.chunk.get? (ex_tree.nchunks - 1).toNat)) :=
  C7_new_chunk_leads_live_list ex_env ex_tree ex_heap 3 (by decide) (by decide) (by decide)
    (by decide)

/-! ## The planner (lines 103-111) -/

theorem live_ok_load (t : WT_LSM_TREE) (ht : live_ok t) (i : Nat) (hi : (i : Int) < t.nchunks) :
    ∃ p, load t.chunk i = some (some p) := by
  obtain ⟨hlen, hnn⟩ := ht
  have hil : i < t.chunk.length := by omega
  have hmem : t.chunk[i] ∈ t.chunk.take t.nchunks.toNat := by
    rw [List.mem_take_iff_getElem]
    exact ⟨i, by omega, rfl⟩
  have hne := hnn _ hmem
  cases hx : t.chunk[i] with
  | none => exact absurd hx hne
  | some p =>
    refine ⟨p, ?_⟩
    unfold load
    rw [if_pos (by omega), List.get?_eq_getElem?, Int.toNat_ofNat,
      List.getElem?_eq_getElem hil, hx]

theorem deref_of_load (h : Heap) (a : List (Option Ptr)) (i : Int) (p : Ptr)
    (hl : load a i = some (some p)) : deref h a i = some (h p) := by
  unfold deref; rw [hl]

/-- The shrink loop over allocated, non-NULL entries ends, never goes below 1
from 1 or more, never grows, and stops above 1 only at an eligible chunk. -/
theorem shrink_spec (chunk : List (Option Ptr)) (h : Heap) :
    ∀ k : Nat, (∀ i : Nat, i < k → ∃ p, load chunk i = some (some p)) →
      ∃ m, shrink chunk h k = some m ∧ m ≤ k ∧ (1 ≤ k → 1 ≤ m) ∧
        (2 ≤ m → eligible h chunk ((m : Int) - 1) = true) := by
  intro k
  induction k with
  | zero => intro _; exact ⟨0, rfl, le_refl _, fun h0 => h0, fun h2 => by omega⟩
  | succ k ih =>
    intro hk
    unfold shrink
    by_cases hgt : ((k : Int) + 1) > 1
    · rw [if_pos hgt]
      obtain ⟨p, hp⟩ := hk k (by omega)
      have hd : deref h chunk ((k : Int) + 1 - 1) = some (h p) := by
        apply deref_of_load
        rw [show (k : Int) + 1 - 1 = k by omega]; exact hp
      simp only [hd]
      by_cases hbad : (!F_ISSET (h p) WT_LSM_CHUNK_ONDISK || decide ((h p).ncursor > 0)) = true
      · rw [if_pos hbad]
        obtain ⟨m, hm, hle, h1, h2⟩ := ih (fun i hi => hk i (by omega))
        exact ⟨m, hm, by omega, fun _ => h1 (by omega), h2⟩
      · rw [if_neg hbad]
        refine ⟨k + 1, rfl, le_refl _, fun _ => by omega, fun _ => ?_⟩
        unfold eligible
        rw [show ((k + 1 : Nat) : Int) - 1 = (k : Int) + 1 - 1 by omega, hd]
        simp only [Bool.or_eq_true, Bool.not_eq_true', decide_eq_true_eq, not_or,
          Bool.not_eq_false] at hbad
        simp only [Bool.and_eq_true, decide_eq_true_eq]
        exact ⟨hbad.1, by omega⟩
    · rw [if_neg hgt]
      exact ⟨k + 1, rfl, le_refl _, fun _ => by omega, fun h2 => by omega⟩

theorem record_sum_total (chunk : List (Option Ptr)) (h : Heap) :
    ∀ n : Nat, (∀ i : Nat, i < n → ∃ p, load chunk i = some (some p)) →
      ∃ rc, record_sum chunk h n = some rc := by
  intro n
  induction n with
  | zero => intro _; exact ⟨0, rfl⟩
  | succ n ih =>
    intro hn
    obtain ⟨s, hs⟩ := ih (fun i hi => hn i (by omega))
    obtain ⟨p, hp⟩ := hn n (by omega)
    unfold record_sum
    rw [hs, deref_of_load h chunk n p hp]
    exact ⟨_, rfl⟩

/-- On a well-formed live list the planner runs to the end; the span it returns
is at most `nchunks - 1`, and when it is 2 or more the chunk at its boundary,
`chunk[span - 1]`, is on disk and has no open cursor. -/
theorem plan_spec (env : Env) (t : WT_LSM_TREE) (h : Heap) (ht : live_ok t) :
    ∃ p, plan env t h = some p ∧ p.nchunks ≤ t.nchunks - 1 ∧
      p.nchunks ≤ Int.tdiv env.hazard_size 2 ∧
      (2 ≤ p.nchunks → eligible h t.chunk (p.nchunks - 1) = true) := by
  have hmin1 : WT_MIN (Int.tdiv env.hazard_size 2) (t.nchunks - 1) ≤ t.nchunks - 1 := by
    unfold WT_MIN; split <;> omega
  have hmin2 : WT_MIN (Int.tdiv env.hazard_size 2) (t.nchunks - 1)
      ≤ Int.tdiv env.hazard_size 2 := by
    unfold WT_MIN; split <;> omega
  unfold plan
  simp only
  generalize WT_MIN (Int.tdiv env.hazard_size 2) (t.nchunks - 1) = n0 at hmin1 hmin2
  unfold shrink_span
  by_cases hgt : n0 > 1
  · rw [if_pos hgt]
    obtain ⟨m, hm, hle, -, hel⟩ :=
      shrink_spec t.chunk h n0.toNat (fun i hi => live_ok_load t ht i (by omega))
    obtain ⟨rc, hrc⟩ :=
      record_sum_total t.chunk h m (fun i hi => live_ok_load t ht i (by omega))
    rw [hm]
    simp only [Option.map_some', Int.ofNat_eq_coe, Int.toNat_ofNat, hrc]
    exact ⟨_, rfl, by show (m : Int) ≤ _; omega, by show (m : Int) ≤ _; omega,
      fun h2 => hel (by
        have h2b : (2 : Int) ≤ (m : Int) := h2
        omega)⟩
  · rw [if_neg hgt]
    obtain ⟨rc, hrc⟩ :=
      record_sum_total t.chunk h n0.toNat (fun i hi => live_ok_load t ht i (by omega))
    simp only [hrc]
    exact ⟨_, rfl, hmin1, hmin2, fun h2 => by
      have : (2 : Int) ≤ n0 := h2
      omega⟩

/-! ## The copy phase (lines 122-173) -/

theorem copy_loop_count (env : Env) (bloom : Bool) :
    ∀ (l : List Item) (n : Nat) (r : Int) (m : Nat),
      copy_loop env bloom l n = Flow.done r m → m = n + l.length := by
  intro l
  induction l with
  | nil =>
    intro n r m hd
    unfold copy_loop at hd
    cases hd
    rfl
  | cons it rest ih =>
    intro n r m hd
    unfold copy_loop at hd
    split at hd
    · cases hd
    · split at hd
      · cases hd
      · split at hd
        · cases hd
        · split at hd
          · cases hd
          · have := ih (n + 1) r m hd
            rw [List.length_cons]
            omega

theorem finish_ok (env : Env) (bloom : Bool) (r : Int) (n : Nat) (cp : Copied)
    (he : finish env bloom r n = Except.ok cp) :
    cp.insert_count = n ∧ cp.bloom = false := by
  unfold finish at he
  simp only at he
  split at he
  · cases he
  · split at he
    · cases he
    · cases bloom <;> simp only [Bool.false_eq_true, if_false, if_true] at he <;>
        split_ifs at he <;> cases he <;> exact ⟨rfl, rfl⟩

theorem copy_phase_ok (env : Env) (bloom : Bool) (cp : Copied)
    (he : copy_phase env bloom = Except.ok cp) :
    cp.insert_count = env.stream.length ∧ cp.bloom = false := by
  unfold copy_phase at he
  split at he
  · cases he
  · split at he
    · cases he
    · split at he
      · cases he
      · split at he
        · cases he
        · split at he
          · cases he
          · rename_i r n hcl
            have hn := copy_loop_count env _ _ _ _ _ hcl
            obtain ⟨h1, h2⟩ := finish_ok env bloom r n cp he
            exact ⟨by omega, h2⟩

/-- When the copy phase reaches line 175, `insert_count` is the number of
records the cursor delivered and the local `bloom` is NULL. -/
theorem execute_ok (env : Env) (rc : Nat) (cp : Copied)
    (he : execute env rc = Except.ok cp) :
    cp.insert_count = env.stream.length ∧ cp.bloom = false := by
  unfold execute at he
  split at he
  · split at he
    · cases he
    · split at he
      · cases he
      · split at he
        · cases he
        · exact copy_phase_ok env true cp he
  · exact copy_phase_ok env false cp he

/-! ## `__wt_lsm_major_merge` -/

/-- Every way `__wt_lsm_major_merge` can end: before line 176 (the tree is
untouched but for the id counter, which is bumped once the span is 2 or more),
or after the call of `__lsm_merge_update_tree` at line 176, in which case
`chunk` was assigned, the stores of lines 178-183 went through it and the
return value is that of `__wt_lsm_meta_write`. -/
theorem major_merge_inv (env : Env) (t : WT_LSM_TREE) (h : Heap) (r : Merged)
    (hr : __wt_lsm_major_merge env t h = some r) :
    (r.update_ret = none ∧ r.chunk = none ∧ r.heap = h ∧
      (r.tree = t ∨ r.tree = { t with last := WT_ATOMIC_ADD t.last 1 })) ∨
    (∃ p cp u, plan env t h = some p ∧ 1 < p.nchunks ∧
      execute env p.record_count = Except.ok cp ∧
      __lsm_merge_update_tree env { t with last := WT_ATOMIC_ADD t.last 1 } h p.nchunks
        = some u ∧
      r.ret = env.meta_write ∧ r.tree = u.tree ∧ r.update_ret = some u.ret ∧
      r.chunk = u.chunkp ∧
      ∃ c, u.chunkp = some c ∧ r.heap = filled_heap env u cp c) := by
  unfold __wt_lsm_major_merge at hr
  simp only at hr
  split at hr
  · cases hr
    exact Or.inl ⟨rfl, rfl, rfl, Or.inl rfl⟩
  · split at hr
    · cases hr
    · rename_i p hp
      split at hr
      · cases hr
        exact Or.inl ⟨rfl, rfl, rfl, Or.inl rfl⟩
      · rename_i hspan
        split at hr
        · cases hr
          exact Or.inl ⟨rfl, rfl, rfl, Or.inr rfl⟩
        · split at hr
          · cases hr
            exact Or.inl ⟨rfl, rfl, rfl, Or.inr rfl⟩
          · rename_i cp hcp
            unfold install at hr
            split at hr
            · cases hr
            · rename_i u hu
              split at hr
              · cases hr
              · rename_i c hc
                cases hr
                refine Or.inr ⟨p, cp, u, hp, by omega, hcp, hu, ?_, rfl, rfl, hc.symm, c, hc, ?_⟩
                · simp [cleanup]
                · unfold filled_heap
                  rfl

/-- What `__lsm_merge_update_tree` has done when it returns, read off the
code: an error return leaves `*chunkp` unassigned and `dsk_gen` and the heap
alone; a 0 return has assigned the fresh zeroed chunk and bumped `dsk_gen`. -/
theorem update_tree_inv (env : Env) (t : WT_LSM_TREE) (h : Heap) (s : Int) (u : Updated)
    (hu : __lsm_merge_update_tree env t h s = some u) :
    (u.ret ≠ 0 ∧ u.chunkp = none ∧ u.heap = h ∧ u.tree.dsk_gen = t.dsk_gen) ∨
    (u.ret = 0 ∧ u.chunkp = some env.new_chunk ∧
      u.heap = h.put env.new_chunk zero_chunk ∧ u.tree.dsk_gen = t.dsk_gen + 1) := by
  have tail : ∀ t2 : WT_LSM_TREE, t2.dsk_gen = t.dsk_gen →
      update_tail env t2 h s = some u →
      (u.ret ≠ 0 ∧ u.chunkp = none ∧ u.heap = h ∧ u.tree.dsk_gen = t.dsk_gen) ∨
      (u.ret = 0 ∧ u.chunkp = some env.new_chunk ∧
        u.heap = h.put env.new_chunk zero_chunk ∧ u.tree.dsk_gen = t.dsk_gen + 1) := by
    intro t2 e hu2
    unfold update_tail at hu2
    split at hu2
    · cases hu2
    · split at hu2
      · cases hu2
      · simp only at hu2
        split at hu2
        · cases hu2
        · split at hu2
          · rename_i hc
            cases hu2
            exact Or.inl ⟨hc, rfl, rfl, e⟩
          · split at hu2
            · cases hu2
            · cases hu2
              exact Or.inr ⟨rfl, rfl, rfl, by show t2.dsk_gen + 1 = _; rw [e]⟩
  unfold __lsm_merge_update_tree at hu
  split at hu
  · split at hu
    · rename_i hre
      cases hu
      exact Or.inl ⟨hre, rfl, rfl, rfl⟩
    · exact tail (grow_old env t s) rfl hu
  · exact tail t rfl hu

/-! ## Claims about `__wt_lsm_major_merge` -/

/-- C1: with at most two live chunks `__wt_lsm_major_merge` returns
`WT_NOTFOUND` (a non-zero code), allocates no id, and leaves the tree (chunk
list, retired pool, `old_avail`, `dsk_gen`, `last`) and the chunks unchanged. -/
theorem C1_too_few_chunks_notfound (env : Env) (t : WT_LSM_TREE) (h : Heap)
    (hn : t.nchunks ≤ 2) :
    ∃ r, __wt_lsm_major_merge env t h = some r ∧ r.ret = WT_NOTFOUND ∧
      WT_NOTFOUND ≠ 0 ∧ r.tree = t ∧ r.heap = h ∧ r.dest_id = none := by
  refine ⟨⟨WT_NOTFOUND, t, h, none, none, none⟩, ?_, rfl, by decide, rfl, rfl, rfl⟩
  unfold __wt_lsm_major_merge
  simp only
  rw [if_pos (by omega)]

theorem C1_too_few_chunks_notfound_witness :
    ∃ r, __wt_lsm_major_merge ex_env ex_tree_two ex_heap = some r ∧ r.ret = WT_NOTFOUND ∧
      WT_NOTFOUND ≠ 0 ∧ r.tree = ex_tree_two ∧ r.heap = ex_heap ∧ r.dest_id = none :=
  C1_too_few_chunks_notfound ex_env ex_tree_two ex_heap (by decide)

/-- C2 (as stated, refuted): a tree with three live chunks whose middle chunk
is not on disk: the loop shrinks the span from 2 to 1 and the function returns
0, the success code, not `WT_NOTFOUND`. -/
theorem C2_counterexample :
    2 < ex_tree_unwritten.nchunks ∧
    plan ex_env ex_tree_unwritten ex_heap = some ⟨1, 100⟩ ∧
    (__wt_lsm_major_merge ex_env ex_tree_unwritten ex_heap).map (fun r => r.ret) = some 0 ∧
    (0 : Int) ≠ WT_NOTFOUND := by
  refine ⟨by decide, by decide, by decide, by decide⟩

/-- C2 (amended): on a well-formed tree with more than two live chunks the
planner runs to the end, and when the span it leaves is 1 or less the function
returns 0 and leaves the tree and the chunks unchanged. -/
theorem C2_shrunk_span_returns_zero (env : Env) (t : WT_LSM_TREE) (h : Heap)
    (ht : live_ok t) (hn : 2 < t.nchunks) :
    ∃ p, plan env t h = some p ∧
      (p.nchunks ≤ 1 →
        ∃ r, __wt_lsm_major_merge env t h = some r ∧ r.ret = 0 ∧ r.tree = t ∧
          r.heap = h ∧ r.dest_id = none) := by
  obtain ⟨p, hp, -⟩ := plan_spec env t h ht
  refine ⟨p, hp, fun h1 => ⟨⟨0, t, h, none, none, none⟩, ?_, rfl, rfl, rfl, rfl⟩⟩
  unfold __wt_lsm_major_merge
  simp only [hp]
  rw [if_neg (by omega), if_pos h1]

theorem C2_shrunk_span_returns_zero_witness :
    ∃ p, plan ex_env ex_tree_unwritten ex_heap = some p ∧
      (p.nchunks ≤ 1 →
        ∃ r, __wt_lsm_major_merge ex_env ex_tree_unwritten ex_heap = some r ∧ r.ret = 0 ∧
          r.tree = ex_tree_unwritten ∧ r.heap = ex_heap ∧ r.dest_id = none) :=
  C2_shrunk_span_returns_zero ex_env ex_tree_unwritten ex_heap (by decide) (by decide)

/-- C3 (as stated, refuted): with chunks `1`, `2`, `3` on disk and two cursors
open on chunk `2`, the planner selects the span 3 (the boundary chunk `3` is
eligible), so chunk `2`, at index 1 inside the span, is selected with
`ncursor = 2`. -/
theorem C3_counterexample :
    plan ex_env ex_tree ex_heap = some ⟨3, 354⟩ ∧
    (deref ex_heap ex_tree.chunk 1).map (fun c => c.ncursor) = some 2 ∧
    eligible ex_heap ex_tree.chunk 1 = false := by
  refine ⟨by decide, by decide, by decide⟩

/-- C3 (amended): on a well-formed tree the planner runs to the end, and
when it selects a span of 2 or more, the chunk at the span boundary,
`chunk[span - 1]`, is on disk and has no open cursor (the chunks before it are
not examined). -/
theorem C3_boundary_chunk_eligible (env : Env) (t : WT_LSM_TREE) (h : Heap)
    (ht : live_ok t) :
    ∃ p, plan env t h = some p ∧
      (2 ≤ p.nchunks → eligible h t.chunk (p.nchunks - 1) = true) := by
  obtain ⟨p, hp, -, -, hel⟩ := plan_spec env t h ht
  exact ⟨p, hp, hel⟩

theorem C3_boundary_chunk_eligible_witness :
    ∃ p, plan ex_env ex_tree ex_heap = some p ∧
      (2 ≤ p.nchunks → eligible ex_heap ex_tree.chunk (p.nchunks - 1) = true) :=
  C3_boundary_chunk_eligible ex_env ex_tree ex_heap (by decide)

theorem heap_put_same (h : Heap) (p : Ptr) (c : WT_LSM_CHUNK) : h.put p c p = c := by
  unfold Heap.put; rw [if_pos rfl]

/-- The new chunk as `__wt_lsm_major_merge` leaves it: the destination `uri`,
no `bloom_uri`, `count = insert_count` (the number of records the cursor
delivered) and the on-disk flag. -/
theorem new_chunk_fields (env : Env) (t : WT_LSM_TREE) (h : Heap) (r : Merged) (c : Ptr)
    (hr : __wt_lsm_major_merge env t h = some r) (hc : r.chunk = some c) :
    r.heap c = ⟨some env.dest_uri, none, env.stream.length, 0, WT_LSM_CHUNK_ONDISK⟩ := by
  rcases major_merge_inv env t h r hr with
    ⟨-, hnone, -⟩ | ⟨p, cp, u, -, -, hcp, hu, -, -, -, hch, c2, hc2, hheap⟩
  · rw [hnone] at hc; cases hc
  · obtain ⟨hcount, hbloom⟩ := execute_ok env _ cp hcp
    rw [hch] at hc
    rw [hc] at hc2
    cases hc2
    rcases update_tree_inv env _ h _ u hu with ⟨-, hn, -⟩ | ⟨-, hsome, hh, -⟩
    · rw [hn] at hc; cases hc
    · rw [hheap]
      unfold filled_heap
      simp only [heap_put_same, hbloom, hcount]
      rw [hsome] at hc
      cases hc
      rw [hh, heap_put_same]
      simp [F_SET, zero_chunk, WT_LSM_CHUNK_ONDISK]

/-- C4 (as stated, refuted): merging chunks with 100, 250 and 4 records
(`record_count = 354`) while the cursor delivers 2 records succeeds and leaves
`count = 2` on the new chunk. -/
theorem C4_counterexample :
    plan ex_env ex_tree ex_heap = some ⟨3, 354⟩ ∧
    (__wt_lsm_major_merge ex_env ex_tree ex_heap).map
        (fun r => (r.ret, r.update_ret, r.chunk.map (fun c => (r.heap c).count)))
      = some (0, some 0, some 2) ∧
    (2 : Nat) ≠ 100 + 250 + 4 := by
  refine ⟨by decide, by decide, by decide⟩

/-- C4 (amended): the `count` stored on the new chunk of a merge that
installed one is `insert_count`, the number of records the merge cursor
delivered and the destination accepted. -/
theorem C4_count_is_insert_count (env : Env) (t : WT_LSM_TREE) (h : Heap) (r : Merged)
    (c : Ptr) (hr : __wt_lsm_major_merge env t h = some r) (hc : r.chunk = some c) :
    (r.heap c).count = env.stream.length := by
  rw [new_chunk_fields env t h r c hr hc]

theorem C4_count_is_insert_count_witness :
    ∃ r, __wt_lsm_major_merge ex_env ex_tree ex_heap = some r ∧ r.chunk = some 9 ∧
      (r.heap 9).count = ex_env.stream.length := by
  have hs : (__wt_lsm_major_merge ex_env ex_tree ex_heap).isSome = true := by decide
  obtain ⟨r, hm⟩ := Option.isSome_iff_exists.mp hs
  have hc : r.chunk = some 9 := by
    have hmap : (__wt_lsm_major_merge ex_env ex_tree ex_heap).map (fun r => r.chunk)
        = some (some 9) := by decide
    rw [hm] at hmap
    exact Option.some.inj hmap
  exact ⟨r, hm, hc, C4_count_is_insert_count ex_env ex_tree ex_heap r 9 hm hc⟩

/-- C5 (as stated, refuted): when `__wt_lsm_meta_write` fails with code 5 the
function returns 5, and the tree is the updated one: live list `[9, 4]` of
length 2 instead of `[1, 2, 3, 4]`, a retired pool of 10 slots holding the
merged chunks, `old_avail = 5`, `dsk_gen = 6` instead of 5. -/
theorem C5_counterexample :
    (__wt_lsm_major_merge ex_env_meta_fail ex_tree ex_heap).map
        (fun r => (r.ret, r.tree.chunk.take r.tree.nchunks.toNat, r.tree.nchunks,
          r.tree.old_chunks, r.tree.old_avail, r.tree.dsk_gen, decide (r.tree = ex_tree)))
      = some (5, [some 9, some 4], 2,
          [some 77, some 78, some 1, some 2, some 3, none, none, none, none, none], 5, 6,
          false) ∧
    (ex_tree.chunk.take ex_tree.nchunks.toNat, ex_tree.nchunks, ex_tree.old_chunks,
        ex_tree.old_avail, ex_tree.dsk_gen)
      = ([some 1, some 2, some 3, some 4], 4, [some 77, some 78], 0, 5) := by
  refine ⟨rfl, rfl⟩

/-- C5 (amended): when `__wt_lsm_meta_write` fails after the tree update has
succeeded, the function returns that error and the tree is left as
`__lsm_merge_update_tree` made it (nothing is rolled back): its `dsk_gen` is
one more than before, so it is not the tree the attempt started from. -/
theorem C5_meta_write_failure_keeps_update (env : Env) (t : WT_LSM_TREE) (h : Heap)
    (r : Merged) (hr : __wt_lsm_major_merge env t h = some r)
    (hu : r.update_ret = some 0) (hm : env.meta_write ≠ 0) :
    r.ret = env.meta_write ∧ r.ret ≠ 0 ∧
    (∃ p u, plan env t h = some p ∧
      __lsm_merge_update_tree env { t with last := WT_ATOMIC_ADD t.last 1 } h p.nchunks
        = some u ∧
      u.ret = 0 ∧ r.tree = u.tree) ∧
    r.tree.dsk_gen = t.dsk_gen + 1 ∧ r.tree ≠ t := by
  rcases major_merge_inv env t h r hr with
    ⟨hnone, -⟩ | ⟨p, cp, u, hp, -, -, hupd, hret, htree, hur, -, -⟩
  · rw [hnone] at hu; cases hu
  · rw [hur] at hu
    have hu0 : u.ret = 0 := Option.some.inj hu
    have hgen : r.tree.dsk_gen = t.dsk_gen + 1 := by
      rcases update_tree_inv env _ h _ u hupd with ⟨hne, -⟩ | ⟨-, -, -, hg⟩
      · exact absurd hu0 hne
      · rw [htree, hg]
    refine ⟨hret, by rw [hret]; exact hm, ⟨p, u, hp, hupd, hu0, htree⟩, hgen, ?_⟩
    intro heq
    rw [heq] at hgen
    omega

theorem C5_meta_write_failure_keeps_update_witness :
    ∃ r, __wt_lsm_major_merge ex_env_meta_fail ex_tree ex_heap = some r ∧
      r.ret = ex_env_meta_fail.meta_write ∧ r.ret ≠ 0 ∧
      (∃ p u, plan ex_env_meta_fail ex_tree ex_heap = some p ∧
        __lsm_merge_update_tree ex_env_meta_fail
          { ex_tree with last := WT_ATOMIC_ADD ex_tree.last 1 }
          ex_heap p.nchunks = some u ∧
        u.ret = 0 ∧ r.tree = u.tree) ∧
      r.tree.dsk_gen = ex_tree.dsk_gen + 1 ∧ r.tree ≠ ex_tree := by
  have hs : (__wt_lsm_major_merge ex_env_meta_fail ex_tree ex_heap).isSome = true := by decide
  obtain ⟨r, hm⟩ := Option.isSome_iff_exists.mp hs
  have hu : r.update_ret = some 0 := by
    have hmap : (__wt_lsm_major_merge ex_env_meta_fail ex_tree ex_heap).map
        (fun r => r.update_ret) = some (some 0) := by decide
    rw [hm] at hmap
    exact Option.some.inj hmap
  exact ⟨r, hm,
    C5_meta_write_failure_keeps_update ex_env_meta_fail ex_tree ex_heap r hm hu (by decide)⟩

/-- C6 (as stated, refuted): when `__wt_lsm_meta_write` fails with code 5 the
attempt fails (it returns 5) and `dsk_gen` has gone from 5 to 6. -/
theorem C6_counterexample :
    (__wt_lsm_major_merge ex_env_meta_fail ex_tree ex_heap).map
        (fun r => (r.ret, r.tree.dsk_gen)) = some (5, 6) ∧
    ex_tree.dsk_gen = 5 := by
  refine ⟨by decide, by decide⟩

/-- C6 (amended): every attempt that returns either never reached the tree
update (a no-op, or a failure before line 176) and leaves `dsk_gen` as it
was, or completed the tree update and leaves `dsk_gen` one more than before,
whatever `__wt_lsm_meta_write` returns afterwards.  (An attempt whose tree
update fails does not return: line 178 stores through the unassigned
`chunk`.) -/
theorem C6_generation_follows_tree_update (env : Env) (t : WT_LSM_TREE) (h : Heap)
    (r : Merged) (hr : __wt_lsm_major_merge env t h = some r) :
    (r.update_ret = none ∧ r.tree.dsk_gen = t.dsk_gen) ∨
    (r.update_ret = some 0 ∧ r.ret = env.meta_write ∧ r.tree.dsk_gen = t.dsk_gen + 1) := by
  rcases major_merge_inv env t h r hr with
    ⟨hnone, -, -, ht | ht⟩ | ⟨p, cp, u, -, -, -, hupd, hret, htree, hur, -, c, hc, -⟩
  · exact Or.inl ⟨hnone, by rw [ht]⟩
  · exact Or.inl ⟨hnone, by rw [ht]⟩
  · rcases update_tree_inv env _ h _ u hupd with ⟨hne, hnc, -, hg⟩ | ⟨h0, -, -, hg⟩
    · rw [hnc] at hc
      cases hc
    · exact Or.inr ⟨by rw [hur, h0], hret, by rw [htree, hg]⟩

theorem C6_generation_follows_tree_update_witness :
    ∃ r, __wt_lsm_major_merge ex_env_meta_fail ex_tree ex_heap = some r ∧
      ((r.update_ret = none ∧ r.tree.dsk_gen = ex_tree.dsk_gen) ∨
        (r.update_ret = some 0 ∧ r.ret = ex_env_meta_fail.meta_write ∧
          r.tree.dsk_gen = ex_tree.dsk_gen + 1)) := by
  have hs : (__wt_lsm_major_merge ex_env_meta_fail ex_tree ex_heap).isSome = true := by
    decide
  obtain ⟨r, hm⟩ := Option.isSome_iff_exists.mp hs
  exact ⟨r, hm, C6_generation_follows_tree_update ex_env_meta_fail ex_tree ex_heap r hm⟩

/-- The local `bloom` is set to NULL at line 171, before the test of line 180,
so no merge stores a `bloom_uri` on the chunk it installs. -/
theorem bloom_uri_never_set (env : Env) (t : WT_LSM_TREE) (h : Heap) (r : Merged) (c : Ptr)
    (hr : __wt_lsm_major_merge env t h = some r) (hc : r.chunk = some c) :
    (r.heap c).bloom_uri = none := by
  rw [new_chunk_fields env t h r c hr hc]

/-- C8 (the code at a failing input): merging chunks with 354 records in all,
every call succeeding, so that a bloom filter is created (`record_count != 0`)
and finalized; the merge returns 0 and the installed chunk `9` has no
`bloom_uri`. -/
theorem C8_bloom_uri_missing :
    plan ex_env ex_tree ex_heap = some ⟨3, 354⟩ ∧
    ex_env.bloom_create = 0 ∧ ex_env.bloom_finalize = 0 ∧
    (__wt_lsm_major_merge ex_env ex_tree ex_heap).map
        (fun r => (r.ret, r.update_ret, r.chunk, r.chunk.map (fun c => (r.heap c).bloom_uri)))
      = some (0, some 0, some 9, some none) := by
  refine ⟨by decide, by decide, by decide, by decide⟩

/-! ## Placing chunks in the vacant slots of the pool -/

theorem place_in_vacant_nil (pool : List (Option Ptr)) : place_in_vacant pool [] = pool := by
  induction pool with
  | nil => rfl
  | cons x pool ih =>
    cases x with
    | none => rfl
    | some q => simp only [place_in_vacant, ih]

theorem place_in_vacant_length (pool : List (Option Ptr)) :
    ∀ items, (place_in_vacant pool items).length = pool.length := by
  induction pool with
  | nil => intro items; rfl
  | cons x pool ih =>
    intro items
    cases x with
    | some q => simp only [place_in_vacant, List.length_cons, ih]
    | none =>
      cases items with
      | nil => rfl
      | cons y items => simp only [place_in_vacant, List.length_cons, ih]

/-- Slots that were occupied keep their chunk. -/
theorem place_in_vacant_occupied (pool : List (Option Ptr)) :
    ∀ (items : List (Option Ptr)) (i : Nat) (q : Ptr), pool.get? i = some (some q) →
      (place_in_vacant pool items).get? i = some (some q) := by
  induction pool with
  | nil => intro items i q hq; simp at hq
  | cons x pool ih =>
    intro items i q hq
    cases x with
    | some p =>
      cases i with
      | zero => simpa [place_in_vacant] using hq
      | succ i => simpa [place_in_vacant] using ih items i q (by simpa using hq)
    | none =>
      cases i with
      | zero => simp at hq
      | succ i =>
        cases items with
        | nil => simpa [place_in_vacant] using hq
        | cons y items => simpa [place_in_vacant] using ih items i q (by simpa using hq)

/-- The `j`-th item lands in the `j`-th vacant slot. -/
theorem place_in_vacant_nth (pool : List (Option Ptr)) :
    ∀ (items : List (Option Ptr)) (o j k : Nat) (x : Option Ptr),
      (vacant_from o pool).get? j = some k → items.get? j = some x →
      o ≤ k ∧ (place_in_vacant pool items).get? (k - o) = some x := by
  induction pool with
  | nil => intro items o j k x hk _; simp [vacant_from] at hk
  | cons y pool ih =>
    intro items o j k x hk hx
    cases y with
    | some p =>
      simp only [vacant_from] at hk
      obtain ⟨hle, hget⟩ := ih items (o + 1) j k x hk hx
      refine ⟨by omega, ?_⟩
      have e : k - o = (k - (o + 1)) + 1 := by omega
      rw [e]
      simpa [place_in_vacant] using hget
    | none =>
      cases items with
      | nil => simp at hx
      | cons z items =>
        cases j with
        | zero =>
          simp only [vacant_from, List.get?_cons_zero, Option.some.injEq] at hk hx
          subst hk; subst hx
          exact ⟨le_refl _, by simp [place_in_vacant]⟩
        | succ j =>
          simp only [vacant_from, List.get?_cons_succ] at hk hx
          obtain ⟨hle, hget⟩ := ih items (o + 1) j k x hk hx
          refine ⟨by omega, ?_⟩
          have e : k - o = (k - (o + 1)) + 1 := by omega
          rw [e]
          simpa [place_in_vacant] using hget

theorem vacant_from_length (pool : List (Option Ptr)) :
    ∀ o, (vacant_from o pool).length = pool.count none := by
  induction pool with
  | nil => intro o; rfl
  | cons y pool ih =>
    intro o
    cases y with
    | some p => simp [vacant_from, ih]
    | none => simp [vacant_from, ih]

/-- What the pool holds after placing: for a chunk pointer `x`, its old
occurrences plus its occurrences among the items that found a vacant slot. -/
theorem place_in_vacant_count (x : Ptr) (pool : List (Option Ptr)) :
    ∀ items : List (Option Ptr),
      (place_in_vacant pool items).count (some x)
        = pool.count (some x) + (items.take (pool.count none)).count (some x) := by
  induction pool with
  | nil => intro items; simp [place_in_vacant]
  | cons y pool ih =>
    intro items
    cases y with
    | some p =>
      simp only [place_in_vacant, List.count_cons, ih items]
      simp
      omega
    | none =>
      cases items with
      | nil => simp [place_in_vacant]
      | cons z items =>
        simp only [place_in_vacant, List.count_cons, ih items]
        simp [List.count_cons]
        omega

theorem take_succ_set (l : List (Option Ptr)) (i : Nat) (x : Option Ptr) (hi : i < l.length) :
    (l.set i x).take (i + 1) = l.take i ++ [x] := by
  rw [List.set_eq_take_append_cons_drop, if_pos hi]
  have hl : (l.take i).length = i := by rw [List.length_take]; omega
  rw [List.take_append_eq_append_take, hl, List.take_of_length_le (by omega)]
  simp

/-- The gap-filling loop of lines 34-39 refines the spec's placing rule: run
over the slots `i ..` of the pool with `j` chunks already placed, it leaves
the slots before `i` alone and places the remaining chunks of the span,
`chunk[j .. s - 1]`, in the vacant slots from `i` on. -/
theorem fill_gaps_place (chunk : List (Option Ptr)) (s : Nat) (hs : s ≤ chunk.length) :
    ∀ (rem i j : Nat) (old : List (Option Ptr)) (avail : Int),
      i + rem = old.length →
      ∃ f, fill_gaps chunk s rem i j old avail = some f ∧
        f.old_chunks = old.take i ++ place_in_vacant (old.drop i) ((chunk.take s).drop j) := by
  intro rem
  induction rem with
  | zero =>
    intro i j old avail hlen
    refine ⟨⟨old, avail, j⟩, rfl, ?_⟩
    have hi : i = old.length := by omega
    subst hi
    simp [place_in_vacant]
  | succ rem ih =>
    intro i j old avail hlen
    have hi : i < old.length := by omega
    have hdrop : old.drop i = old[i] :: old.drop (i + 1) := List.drop_eq_getElem_cons hi
    have hget : old.get? i = some old[i] := by
      rw [List.get?_eq_getElem?, List.getElem?_eq_getElem hi]
    unfold fill_gaps
    by_cases hjs : ((j : Nat) : Int) < ((s : Nat) : Int)
    · rw [if_pos hjs]
      have hjs2 : j < s := by omega
      cases hx : old[i] with
      | some q =>
        rw [hx] at hget hdrop
        rw [hget]
        obtain ⟨f, hf, hfo⟩ := ih (i + 1) j old avail (by omega)
        refine ⟨f, hf, ?_⟩
        rw [hfo, hdrop, List.take_succ, List.getElem?_eq_getElem hi, hx]
        simp [place_in_vacant]
      | none =>
        rw [hx] at hget hdrop
        rw [hget]
        have hjl : j < chunk.length := by omega
        have hload : load chunk ((j : Nat) : Int) = some chunk[j] := by
          unfold load
          rw [if_pos (by omega), Int.toNat_ofNat, List.get?_eq_getElem?,
            List.getElem?_eq_getElem hjl]
        have hitems : (chunk.take s).drop j = chunk[j] :: (chunk.take s).drop (j + 1) := by
          have hjt : j < (chunk.take s).length := by
            rw [List.length_take]; omega
          rw [List.drop_eq_getElem_cons hjt, List.getElem_take]
        simp only [hload]
        obtain ⟨f, hf, hfo⟩ := ih (i + 1) (j + 1) (old.set i chunk[j]) (avail - 1)
          (by rw [List.length_set]; omega)
        refine ⟨f, ?_, ?_⟩
        · rw [← hf]; congr 1
        · rw [hfo, hdrop, hitems, List.drop_set_of_lt chunk[j] old (Nat.lt_succ_self i),
            take_succ_set old i chunk[j] hi]
          simp [place_in_vacant]
    · rw [if_neg hjs]
      refine ⟨⟨old, avail, j⟩, rfl, ?_⟩
      have : (chunk.take s).drop j = [] := by
        apply List.drop_eq_nil_of_le
        rw [List.length_take]; omega
      rw [this, place_in_vacant_nil, List.take_append_drop]

/-- The gap-filling loop keeps `old_avail` in step with the number of vacant
slots when the chunks it retires are not NULL. -/
theorem fill_gaps_vacant (chunk : List (Option Ptr)) (nchunks : Int)
    (hnn : ∀ k : Nat, (k : Int) < nchunks → load chunk k ≠ some none) :
    ∀ (rem i : Nat) (j : Int) (old : List (Option Ptr)) (avail : Int) (f : Filled),
      0 ≤ j → fill_gaps chunk nchunks rem i j old avail = some f →
      f.old_avail - f.old_chunks.count none = avail - old.count none := by
  intro rem
  induction rem with
  | zero =>
    intro i j old avail f _ hf
    unfold fill_gaps at hf
    cases hf
    rfl
  | succ rem ih =>
    intro i j old avail f hj hf
    unfold fill_gaps at hf
    split at hf
    · rename_i hjn
      split at hf
      · cases hf
      · exact ih _ _ _ _ _ hj hf
      · rename_i hnone
        split at hf
        · cases hf
        · rename_i p hp
          have hrec := ih _ _ _ _ _ (by omega : (0 : Int) ≤ j + 1) hf
          have hi : i < old.length := by
            by_contra hc
            rw [List.get?_eq_none.mpr (by omega)] at hnone
            cases hnone
          have hoi : old[i] = none := by
            rw [List.get?_eq_getElem?, List.getElem?_eq_getElem hi] at hnone
            exact Option.some.inj hnone
          have hpn : p ≠ none := by
            intro hpe
            have := hnn j.toNat (by omega)
            rw [Int.toNat_of_nonneg hj, hp, hpe] at this
            exact this rfl
          have hpos : 0 < old.count none := by
            rw [List.count_pos_iff]
            rw [← hoi]
            exact List.getElem_mem hi
          rw [List.count_set _ _ _ _ hi, hoi] at hrec
          have hb : ((p == none) = true) = False := by
            simp [hpn]
          simp only [beq_self_eq_true, if_true, hb, if_false, Nat.add_zero] at hrec
          omega
    · cases hf
      rfl

theorem fill_gaps_length (chunk : List (Option Ptr)) (nchunks : Int) :
    ∀ (rem i : Nat) (j : Int) (old : List (Option Ptr)) (avail : Int) (f : Filled),
      fill_gaps chunk nchunks rem i j old avail = some f →
      f.old_chunks.length = old.length := by
  intro rem
  induction rem with
  | zero =>
    intro i j old avail f hf
    unfold fill_gaps at hf
    cases hf
    rfl
  | succ rem ih =>
    intro i j old avail f hf
    unfold fill_gaps at hf
    split at hf
    · split at hf
      · cases hf
      · exact ih _ _ _ _ _ hf
      · split at hf
        · cases hf
        · rw [ih _ _ _ _ _ hf, List.length_set]
    · cases hf
      rfl

/-! ## The pool and the chunk array across `__lsm_merge_update_tree` -/

/-- When the pool growth is not needed or succeeds, `__lsm_merge_update_tree`
is lines 33-55 run on the tree `pool_before_fill`. -/
theorem update_tree_eq_tail (env : Env) (t : WT_LSM_TREE) (h : Heap) (s : Int)
    (hre : s > t.old_avail → env.realloc_ret = 0) :
    __lsm_merge_update_tree env t h s = update_tail env (pool_before_fill env t s) h s := by
  unfold __lsm_merge_update_tree pool_before_fill
  by_cases hg : s > t.old_avail
  · rw [if_pos hg, if_pos hg, if_neg (by simp [hre hg])]
  · rw [if_neg hg, if_neg hg]

/-- The grown pool is the old pool followed by vacant slots, at least
`2 * nchunks` of them. -/
theorem grow_old_chunks (env : Env) (t : WT_LSM_TREE) (s : Int) (hsz : 0 < env.chunk_sz)
    (hpool : t.nold_chunks = t.old_chunks.length) (h0 : 0 ≤ s) :
    ∃ g : Nat, (grow_old env t s).old_chunks = t.old_chunks ++ List.replicate g none ∧
      2 * s ≤ g ∧ (g : Int) = (grow_old env t s).nold_chunks - t.nold_chunks := by
  have hmax : t.nold_chunks + 2 * s ≤ WT_MAX 10 (t.nold_chunks + 2 * s) := by
    unfold WT_MAX; split <;> omega
  have hdiv : env.chunk_sz * (WT_MAX 10 (t.nold_chunks + 2 * s)).toNat / env.chunk_sz
      = (WT_MAX 10 (t.nold_chunks + 2 * s)).toNat := Nat.mul_div_cancel_left _ hsz
  refine ⟨(WT_MAX 10 (t.nold_chunks + 2 * s)).toNat - t.old_chunks.length, ?_, by omega, ?_⟩
  · show wt_realloc env.chunk_sz (env.chunk_sz * (WT_MAX 10 (t.nold_chunks + 2 * s)).toNat)
        t.old_chunks = _
    unfold wt_realloc
    rw [hdiv]
    apply List.take_of_length_le
    rw [List.length_append, List.length_replicate]
    omega
  · rw [(grow_old_spec env t s hsz).1]
    omega

/-- The pool the gap-filling loop meets: the old pool followed by `g` vacant
slots (`g = 0` without growth), with the length its counter says and with
`old_avail` equal to its number of vacant slots, at least `nchunks`. -/
theorem pool_before_fill_spec (env : Env) (t : WT_LSM_TREE) (s : Int)
    (hsz : 0 < env.chunk_sz) (hpool : t.nold_chunks = t.old_chunks.length)
    (hav : t.old_avail = vacant t) (h0 : 0 ≤ s) :
    (pool_before_fill env t s).chunk = t.chunk ∧
    (pool_before_fill env t s).nchunks = t.nchunks ∧
    (pool_before_fill env t s).dsk_gen = t.dsk_gen ∧
    (pool_before_fill env t s).last = t.last ∧
    (∃ g : Nat, (pool_before_fill env t s).old_chunks = t.old_chunks ++ List.replicate g none) ∧
    (pool_before_fill env t s).nold_chunks = (pool_before_fill env t s).old_chunks.length ∧
    (pool_before_fill env t s).old_avail = (pool_before_fill env t s).old_chunks.count none ∧
    s ≤ (pool_before_fill env t s).old_avail := by
  have hv : (vacant t : Int) = t.old_chunks.count none := by
    unfold vacant
    rw [List.take_of_length_le (by omega)]
  unfold pool_before_fill
  by_cases hg : s > t.old_avail
  · rw [if_pos hg]
    obtain ⟨g, hgc, hg2, hgl⟩ := grow_old_chunks env t s hsz hpool h0
    obtain ⟨hn, -, ha, -⟩ := grow_old_spec env t s hsz
    refine ⟨rfl, rfl, rfl, rfl, ⟨g, hgc⟩, by rw [grow_old_pool], ?_, ?_⟩
    · rw [ha, hgc, List.count_append, List.count_replicate_self, ← hn]
      push_cast
      omega
    · rw [ha, ← hn]
      have : (0 : Int) ≤ vacant t := by omega
      omega
  · rw [if_neg hg]
    refine ⟨rfl, rfl, rfl, rfl, ⟨0, by simp⟩, hpool, by rw [hav, hv], by omega⟩

/-- What lines 33-55 did when they return, read off the code. -/
theorem update_tail_inv (env : Env) (t : WT_LSM_TREE) (h : Heap) (s : Int) (u : Updated)
    (hu : update_tail env t h s = some u) :
    ∃ f c1 c2,
      fill_gaps t.chunk s t.nold_chunks.toNat 0 0 t.old_chunks t.old_avail = some f ∧
      memmove t.chunk 1 s (t.nchunks - s) = some c1 ∧
      memset0 c1 (t.nchunks - (s - 1)) (s - 1) = some c2 ∧
      u.tree.old_chunks = f.old_chunks ∧ u.tree.old_avail = f.old_avail ∧
      u.tree.nold_chunks = t.nold_chunks ∧ u.tree.nchunks = t.nchunks - (s - 1) ∧
      (u.ret = 0 → u.tree.chunk = c2.set 0 (some env.new_chunk) ∧ 0 < c2.length) := by
  unfold update_tail at hu
  split at hu
  · cases hu
  · rename_i f hf
    split at hu
    · cases hu
    · rename_i c1 hc1
      simp only at hu
      split at hu
      · cases hu
      · rename_i c2 hc2
        split at hu
        · rename_i hc
          cases hu
          exact ⟨f, c1, c2, hf, hc1, hc2, rfl, rfl, rfl, rfl, fun h0 => absurd h0 hc⟩
        · split at hu
          · cases hu
          · rename_i c3 hc3
            cases hu
            refine ⟨f, c1, c2, hf, hc1, hc2, rfl, rfl, rfl, rfl, fun _ => ?_⟩
            unfold store at hc3
            split at hc3
            · rename_i hb
              cases hc3
              exact ⟨rfl, hb.2⟩
            · cases hc3

theorem update_ret_zero_realloc (env : Env) (t : WT_LSM_TREE) (h : Heap) (s : Int)
    (u : Updated) (hu : __lsm_merge_update_tree env t h s = some u) (h0 : u.ret = 0) :
    s > t.old_avail → env.realloc_ret = 0 := by
  intro hg
  by_contra hre
  unfold __lsm_merge_update_tree at hu
  rw [if_pos hg, if_pos hre] at hu
  cases hu
  exact hre h0

theorem live_ok_nonnull (t : WT_LSM_TREE) (ht : live_ok t) (s : Int) (hs : s ≤ t.nchunks) :
    ∀ k : Nat, (k : Int) < s → load t.chunk k ≠ some none := by
  intro k hk hl
  obtain ⟨p, hp⟩ := live_ok_load t ht k (by omega)
  rw [hp] at hl
  cases hl

/-- C20: when `old_avail` equals the number of vacant slots of the pool and
the growth of lines 23-32 (if needed) succeeds, the gap-filling loop ends with
`j == nchunks`: it places all `nchunks` chunks and does not stop at the end of
the pool. -/
theorem C20_assertion_j_eq_nchunks (env : Env) (t : WT_LSM_TREE) (h : Heap) (s : Int)
    (hsz : 0 < env.chunk_sz) (h0 : 0 ≤ s) (hs : s ≤ t.chunk.length)
    (hpool : t.nold_chunks = t.old_chunks.length) (hav : t.old_avail = vacant t)
    (hre : env.realloc_ret = 0) :
    __lsm_merge_update_tree env t h s = update_tail env (pool_before_fill env t s) h s ∧
    ∃ f, fill_gaps (pool_before_fill env t s).chunk s
          (pool_before_fill env t s).nold_chunks.toNat 0 0
          (pool_before_fill env t s).old_chunks (pool_before_fill env t s).old_avail = some f ∧
      f.j = s := by
  obtain ⟨hc, -, -, -, -, hlen, hcount, hge⟩ := pool_before_fill_spec env t s hsz hpool hav h0
  refine ⟨update_tree_eq_tail env t h s (fun _ => hre), ?_⟩
  obtain ⟨f, hf, -, -, -, -, hall⟩ :=
    fill_gaps_spec (pool_before_fill env t s).chunk s (by rw [hc]; exact hs)
      (pool_before_fill env t s).nold_chunks.toNat 0 0
      (pool_before_fill env t s).old_chunks (pool_before_fill env t s).old_avail
      (le_refl _) (by omega)
  refine ⟨f, hf, hall h0 ?_⟩
  rw [List.drop_zero, List.take_of_length_le (by omega)]
  omega

theorem C20_assertion_j_eq_nchunks_witness :
    __lsm_merge_update_tree ex_env ex_tree ex_heap 3
      = update_tail ex_env (pool_before_fill ex_env ex_tree 3) ex_heap 3 ∧
    ∃ f, fill_gaps (pool_before_fill ex_env ex_tree 3).chunk 3
          (pool_before_fill ex_env ex_tree 3).nold_chunks.toNat 0 0
          (pool_before_fill ex_env ex_tree 3).old_chunks
          (pool_before_fill ex_env ex_tree 3).old_avail = some f ∧
      f.j = 3 :=
  C20_assertion_j_eq_nchunks ex_env ex_tree ex_heap 3 (by decide) (by decide) (by decide)
    (by decide) (by decide) (by decide)

/-- C19: if the pool has the length its counter says and `old_avail` equals
its number of vacant slots, the same holds of the tree every call of
`__lsm_merge_update_tree` with a span `s >= 0` of non-NULL chunks leaves
behind, with or without growth of the pool; for `1 <= s <= nchunks` the call
does return; and for every `s >= 0` the pool section of the function (lines
23-39: growth when needed, then the gap-filling loop) ends with `old_avail`
equal to the number of vacant slots. -/
theorem C19_old_avail_counts_vacant_slots (env : Env) (t : WT_LSM_TREE) (h : Heap) (s : Int)
    (hsz : 0 < env.chunk_sz) (ht : live_ok t) (h0 : 0 ≤ s) (hs : s ≤ t.nchunks)
    (hpool : t.nold_chunks = t.old_chunks.length) (hav : t.old_avail = vacant t) :
    (∀ u, __lsm_merge_update_tree env t h s = some u →
      u.tree.nold_chunks = u.tree.old_chunks.length ∧ u.tree.old_avail = vacant u.tree) ∧
    (1 ≤ s → ∃ u, __lsm_merge_update_tree env t h s = some u) ∧
    (∃ f, fill_gaps (pool_before_fill env t s).chunk s
          (pool_before_fill env t s).nold_chunks.toNat 0 0
          (pool_before_fill env t s).old_chunks (pool_before_fill env t s).old_avail = some f ∧
      (f.old_chunks.length : Int) = (pool_before_fill env t s).nold_chunks ∧
      f.old_avail = f.old_chunks.count none) := by
  refine ⟨?_, ?_, ?_⟩
  · intro u hu
    by_cases hfail : s > t.old_avail ∧ env.realloc_ret ≠ 0
    · unfold __lsm_merge_update_tree at hu
      rw [if_pos hfail.1, if_pos hfail.2] at hu
      cases hu
      exact ⟨hpool, hav⟩
    · have hre : s > t.old_avail → env.realloc_ret = 0 := by
        intro hg
        by_contra hne
        exact hfail ⟨hg, hne⟩
      rw [update_tree_eq_tail env t h s hre] at hu
      obtain ⟨hc, -, -, -, -, hlen, hcount, -⟩ :=
        pool_before_fill_spec env t s hsz hpool hav h0
      obtain ⟨f, c1, c2, hf, -, -, ho, ha, hn, -⟩ :=
        update_tail_inv env (pool_before_fill env t s) h s u hu
      have hfl := fill_gaps_length _ _ _ _ _ _ _ _ hf
      have hfv := fill_gaps_vacant (pool_before_fill env t s).chunk s
        (by rw [hc]; exact live_ok_nonnull t ht s hs) _ _ _ _ _ _ (le_refl _) hf
      have hnl : u.tree.nold_chunks = u.tree.old_chunks.length := by
        rw [hn, ho, hfl, hlen]
      refine ⟨hnl, ?_⟩
      unfold vacant
      rw [List.take_of_length_le (by omega), ha, ho]
      omega
  · intro h1
    obtain ⟨u, hu, -⟩ := update_tree_spec env t h s h1 hs ht.1 (by omega)
    exact ⟨u, hu⟩
  · obtain ⟨hc, -, -, -, -, hlen, hcount, -⟩ :=
      pool_before_fill_spec env t s hsz hpool hav h0
    obtain ⟨f, hf, hfl, -⟩ :=
      fill_gaps_spec (pool_before_fill env t s).chunk s (by rw [hc]; have := ht.1; omega)
        (pool_before_fill env t s).nold_chunks.toNat 0 0
        (pool_before_fill env t s).old_chunks (pool_before_fill env t s).old_avail
        (le_refl _) (by omega)
    have hfv := fill_gaps_vacant (pool_before_fill env t s).chunk s
      (by rw [hc]; exact live_ok_nonnull t ht s hs) _ _ _ _ _ _ (le_refl _) hf
    exact ⟨f, hf, by rw [hfl, hlen], by omega⟩

theorem C19_old_avail_counts_vacant_slots_witness :
    (∀ u, __lsm_merge_update_tree ex_env ex_tree_vacant ex_heap 3 = some u →
      u.tree.nold_chunks = u.tree.old_chunks.length ∧ u.tree.old_avail = vacant u.tree) ∧
    (1 ≤ (3 : Int) → ∃ u, __lsm_merge_update_tree ex_env ex_tree_vacant ex_heap 3 = some u) ∧
    (∃ f, fill_gaps (pool_before_fill ex_env ex_tree_vacant 3).chunk 3
          (pool_before_fill ex_env ex_tree_vacant 3).nold_chunks.toNat 0 0
          (pool_before_fill ex_env ex_tree_vacant 3).old_chunks
          (pool_before_fill ex_env ex_tree_vacant 3).old_avail = some f ∧
      (f.old_chunks.length : Int) = (pool_before_fill ex_env ex_tree_vacant 3).nold_chunks ∧
      f.old_avail = f.old_chunks.count none) :=
  C19_old_avail_counts_vacant_slots ex_env ex_tree_vacant ex_heap 3 (by decide) (by decide)
    (by decide) (by decide) (by decide) (by decide)

/-- With a span of 0 the function does not return: line 47 clears
`nchunks - 1 = -1` entries. -/
theorem update_tree_span_zero (env : Env) (t : WT_LSM_TREE) (h : Heap)
    (hav : 0 ≤ t.old_avail) : __lsm_merge_update_tree env t h 0 = none := by
  unfold __lsm_merge_update_tree
  rw [if_neg (by omega)]
  unfold update_tail
  split
  · rfl
  · split
    · rfl
    · simp only
      have : ∀ c1 : List (Option Ptr), memset0 c1 (t.nchunks - (0 - 1)) (0 - 1) = none := by
        intro c1
        unfold memset0
        rw [if_neg (by omega)]
      rw [this]

theorem count_one_of_nodup (l : List (Option Ptr)) (x : Option Ptr) (hnd : l.Nodup)
    (hx : x ∈ l) : l.count x = 1 := by
  induction l with
  | nil => simp at hx
  | cons a l ih =>
    rw [List.nodup_cons] at hnd
    rw [List.count_cons]
    by_cases hax : a = x
    · subst hax
      rw [List.count_eq_zero.mpr hnd.1]
      simp
    · have hxl : x ∈ l := by
        rcases List.mem_cons.mp hx with h | h
        · exact absurd h.symm hax
        · exact h
      rw [ih hnd.2 hxl]
      simp [hax]

/-- C17: on a pool in step with its counters, every span of `s` distinct live
chunks that are not yet in the pool is retired as the spec says: the update
returns, and when it succeeds the new pool is the pool met by the loop (the
old pool, followed by the newly grown vacant slots) with the chunks of the
span placed in its vacant slots, lowest index first.  So every slot occupied
before keeps its chunk, the `j`-th chunk of the span is in the `j`-th vacant
slot, and each chunk of the span occurs exactly once in the pool. -/
theorem C17_span_fills_vacant_slots_in_order (env : Env) (t : WT_LSM_TREE) (h : Heap)
    (s : Int) (hsz : 0 < env.chunk_sz) (ht : live_ok t) (h1 : 1 ≤ s) (h2 : s ≤ t.nchunks)
    (hpool : t.nold_chunks = t.old_chunks.length) (hav : t.old_avail = vacant t)
    (hnd : (t.chunk.take s.toNat).Nodup)
    (hdis : ∀ x ∈ t.chunk.take s.toNat, x ∉ t.old_chunks) :
    ∃ u, __lsm_merge_update_tree env t h s = some u ∧
      (u.ret = 0 →
        (∃ g : Nat, (pool_before_fill env t s).old_chunks
            = t.old_chunks ++ List.replicate g none) ∧
        u.tree.old_chunks
          = place_in_vacant (pool_before_fill env t s).old_chunks (t.chunk.take s.toNat) ∧
        (∀ (i : Nat) (q : Ptr), t.old_chunks.get? i = some (some q) →
          u.tree.old_chunks.get? i = some (some q)) ∧
        (∀ j : Nat, (j : Int) < s →
          ∃ k, (vacant_from 0 (pool_before_fill env t s).old_chunks).get? j = some k ∧
            u.tree.old_chunks.get? k = t.chunk.get? j) ∧
        (∀ x ∈ t.chunk.take s.toNat, u.tree.old_chunks.count x = 1)) := by
  obtain ⟨u, hu, -⟩ := update_tree_spec env t h s h1 h2 ht.1 (by omega)
  refine ⟨u, hu, fun hret => ?_⟩
  have hre := update_ret_zero_realloc env t h s u hu hret
  rw [update_tree_eq_tail env t h s hre] at hu
  obtain ⟨hc, -, -, -, ⟨g, hg⟩, hlen, hcount, hge⟩ :=
    pool_before_fill_spec env t s hsz hpool hav (by omega)
  obtain ⟨f, -, -, hf, -, -, ho, -⟩ := update_tail_inv env (pool_before_fill env t s) h s u hu
  obtain ⟨s', rfl⟩ := Int.eq_ofNat_of_zero_le (by omega : 0 ≤ s)
  have hsl : s' ≤ t.chunk.length := by have := ht.1; omega
  obtain ⟨f2, hf2, hplace⟩ :=
    fill_gaps_place (pool_before_fill env t s').chunk s' (by rw [hc]; exact hsl)
      (pool_before_fill env t s').nold_chunks.toNat 0 0
      (pool_before_fill env t s').old_chunks (pool_before_fill env t s').old_avail (by omega)
  have hf' : fill_gaps (pool_before_fill env t s').chunk (s' : Int)
      (pool_before_fill env t s').nold_chunks.toNat 0 ((0 : Nat) : Int)
      (pool_before_fill env t s').old_chunks (pool_before_fill env t s').old_avail = some f := hf
  rw [hf'] at hf2
  cases hf2
  rw [List.take_zero, List.nil_append, List.drop_zero, List.drop_zero, hc] at hplace
  have hpl : u.tree.old_chunks
      = place_in_vacant (pool_before_fill env t s').old_chunks (t.chunk.take s') := by
    rw [ho, hplace]
  have e3 : ((s' : Nat) : Int).toNat = s' := by omega
  rw [e3] at hnd hdis ⊢
  have hvac : (pool_before_fill env t s').old_chunks.count none ≥ s' := by omega
  refine ⟨⟨g, hg⟩, hpl, ?_, ?_, ?_⟩
  · intro i q hq
    rw [hpl]
    apply place_in_vacant_occupied
    rw [hg, List.get?_eq_getElem?, List.getElem?_append_left, ← List.get?_eq_getElem?]
    · exact hq
    · by_contra hcon
      rw [List.get?_eq_none.mpr (by omega)] at hq
      cases hq
  · intro j hj
    have hj' : j < s' := by omega
    have hvl : j < (vacant_from 0 (pool_before_fill env t s').old_chunks).length := by
      rw [vacant_from_length]; omega
    refine ⟨(vacant_from 0 (pool_before_fill env t s').old_chunks)[j], ?_, ?_⟩
    · rw [List.get?_eq_getElem?, List.getElem?_eq_getElem hvl]
    · have hx : (t.chunk.take s').get? j = t.chunk.get? j := by
        rw [List.get?_eq_getElem?, List.get?_eq_getElem?, List.getElem?_take_of_lt hj']
      have hjl : j < t.chunk.length := by omega
      have hsome : t.chunk.get? j = some t.chunk[j] := by
        rw [List.get?_eq_getElem?, List.getElem?_eq_getElem hjl]
      obtain ⟨-, hget⟩ := place_in_vacant_nth (pool_before_fill env t s').old_chunks
        (t.chunk.take s') 0 j _ t.chunk[j]
        (by rw [List.get?_eq_getElem?, List.getElem?_eq_getElem hvl]) (by rw [hx, hsome])
      rw [hpl, hsome]
      simpa using hget
  · intro x hx
    have hxn : x ≠ none := ht.2 x (by
      have hsub : s' ≤ t.nchunks.toNat := by omega
      have htt : t.chunk.take s' = (t.chunk.take t.nchunks.toNat).take s' := by
        rw [List.take_take, Nat.min_eq_left hsub]
      rw [htt] at hx
      exact List.mem_of_mem_take hx)
    cases x with
    | none => exact absurd rfl hxn
    | some p =>
      rw [hpl, place_in_vacant_count, List.take_of_length_le (by
        rw [List.length_take]; omega), hg, List.count_append, List.count_replicate]
      have h0 : t.old_chunks.count (some p) = 0 := List.count_eq_zero.mpr (hdis _ hx)
      have h1' : (t.chunk.take s').count (some p) = 1 := count_one_of_nodup _ _ hnd hx
      simp [h0, h1']

theorem C17_span_fills_vacant_slots_in_order_witness :
    ∃ u, __lsm_merge_update_tree ex_env ex_tree_vacant ex_heap 3 = some u ∧
      (u.ret = 0 →
        (∃ g : Nat, (pool_before_fill ex_env ex_tree_vacant 3).old_chunks
            = ex_tree_vacant.old_chunks ++ List.replicate g none) ∧
        u.tree.old_chunks
          = place_in_vacant (pool_before_fill ex_env ex_tree_vacant 3).old_chunks
              (ex_tree_vacant.chunk.take (3 : Int).toNat) ∧
        (∀ (i : Nat) (q : Ptr), ex_tree_vacant.old_chunks.get? i = some (some q) →
          u.tree.old_chunks.get? i = some (some q)) ∧
        (∀ j : Nat, (j : Int) < 3 →
          ∃ k, (vacant_from 0 (pool_before_fill ex_env ex_tree_vacant 3).old_chunks).get? j
              = some k ∧
            u.tree.old_chunks.get? k = ex_tree_vacant.chunk.get? j) ∧
        (∀ x ∈ ex_tree_vacant.chunk.take (3 : Int).toNat, u.tree.old_chunks.count x = 1)) :=
  C17_span_fills_vacant_slots_in_order ex_env ex_tree_vacant ex_heap 3 (by decide) (by decide)
    (by decide) (by decide) (by decide) (by decide) (by decide) (by decide)

theorem pool_before_fill_chunk (env : Env) (t : WT_LSM_TREE) (s : Int) :
    (pool_before_fill env t s).chunk = t.chunk ∧
    (pool_before_fill env t s).nchunks = t.nchunks := by
  unfold pool_before_fill
  split <;> exact ⟨rfl, rfl⟩

/-- The entries that line 47 clears: after `memset`, the `s - 1` entries that
follow the first `n - s + 1` are NULL. -/
theorem memset0_cleared (c1 c2 : List (Option Ptr)) (n s : Nat)
    (h1 : 1 ≤ s) (h2 : s ≤ n) (h3 : n ≤ c1.length)
    (hm : memset0 c1 ((n : Int) - ((s : Int) - 1)) ((s : Int) - 1) = some c2) :
    (c2.drop (n - s + 1)).take (s - 1) = List.replicate (s - 1) none := by
  have e3 : ((n : Int) - ((s : Int) - 1)).toNat = n - s + 1 := by omega
  have e4 : ((s : Int) - 1).toNat = s - 1 := by omega
  unfold memset0 at hm
  rw [if_pos (by omega), e3, e4] at hm
  cases hm
  have hl : (c1.take (n - s + 1)).length = n - s + 1 := by
    rw [List.length_take]; omega
  rw [List.append_assoc, List.drop_append_eq_append_drop, hl, Nat.sub_self, List.drop_zero,
    List.drop_of_length_le (by omega), List.nil_append,
    List.take_append_of_le_length (by rw [List.length_replicate])]
  apply List.take_of_length_le
  rw [List.length_replicate]

/-- C18: a successful update with span `s` (`1 <= s <= n`) of a contiguous
live list of `n` chunks leaves a live list of `n - s + 1` entries, none of
them NULL, followed by `s - 1` cleared entries; the list is the new chunk
followed by the `n - s` chunks outside the span in their old order, and the
new chunk, distinct from the chunks that were live, occurs in it once. -/
theorem C18_live_list_after_update (env : Env) (t : WT_LSM_TREE) (h : Heap) (s : Int)
    (ht : live_ok t) (h1 : 1 ≤ s) (h2 : s ≤ t.nchunks)
    (hpool : t.nold_chunks ≤ t.old_chunks.length)
    (hfresh : some env.new_chunk ∉ t.chunk.take t.nchunks.toNat) :
    ∃ u, __lsm_merge_update_tree env t h s = some u ∧
      (u.ret = 0 →
        u.tree.nchunks = t.nchunks - s + 1 ∧
        (∀ x ∈ u.tree.chunk.take u.tree.nchunks.toNat, x ≠ none) ∧
        (u.tree.chunk.drop u.tree.nchunks.toNat).take (s - 1).toNat
          = List.replicate (s - 1).toNat none ∧
        u.tree.chunk.take u.tree.nchunks.toNat
          = some env.new_chunk :: (t.chunk.take t.nchunks.toNat).drop s.toNat ∧
        ((t.chunk.take t.nchunks.toNat).drop s.toNat).length = (t.nchunks - s).toNat ∧
        (u.tree.chunk.take u.tree.nchunks.toNat).count (some env.new_chunk) = 1) := by
  obtain ⟨u, hu, -, -, hok⟩ := update_tree_spec env t h s h1 h2 ht.1 hpool
  refine ⟨u, hu, fun hret => ?_⟩
  obtain ⟨-, -, -, hn, hl⟩ := hok hret
  have hlive : u.tree.chunk.take u.tree.nchunks.toNat
      = some env.new_chunk :: (t.chunk.take t.nchunks.toNat).drop s.toNat := by
    rw [hn, hl, List.drop_take]
    congr 2
    omega
  have hsub : ∀ x ∈ (t.chunk.take t.nchunks.toNat).drop s.toNat,
      x ∈ t.chunk.take t.nchunks.toNat := fun x hx => List.mem_of_mem_drop hx
  refine ⟨hn, ?_, ?_, hlive, ?_, ?_⟩
  · intro x hx
    rw [hlive] at hx
    rcases List.mem_cons.mp hx with hx | hx
    · rw [hx]; simp
    · exact ht.2 x (hsub x hx)
  · have hre := update_ret_zero_realloc env t h s u hu hret
    rw [update_tree_eq_tail env t h s hre] at hu
    obtain ⟨hc, hnc⟩ := pool_before_fill_chunk env t s
    obtain ⟨f, c1, c2, -, hc1, hc2, -, -, -, -, hch⟩ :=
      update_tail_inv env (pool_before_fill env t s) h s u hu
    obtain ⟨hset, hpos⟩ := hch hret
    rw [hc, hnc] at hc1
    rw [hnc] at hc2
    obtain ⟨s', rfl⟩ := Int.eq_ofNat_of_zero_le (by omega : 0 ≤ s)
    obtain ⟨n', hn'⟩ := Int.eq_ofNat_of_zero_le (by omega : 0 ≤ t.nchunks)
    rw [hn'] at hc1 hc2
    obtain ⟨c1', hc1', hl1, -⟩ :=
      memmove_live t.chunk n' s' (by omega) (by omega) (by have := ht.1; omega)
    rw [hc1] at hc1'
    cases hc1'
    have hcl := memset0_cleared c1 c2 n' s' (by omega) (by omega)
      (by rw [hl1]; have := ht.1; omega) hc2
    have e1 : (t.nchunks - (s' : Int) + 1).toNat = n' - s' + 1 := by omega
    have e2 : ((s' : Int) - 1).toNat = s' - 1 := by omega
    rw [hn, e1, e2, hset, List.drop_set_of_lt _ _ (by omega)]
    exact hcl
  · rw [List.length_drop, List.length_take]
    have := ht.1
    omega
  · rw [hlive, List.count_cons]
    have : ((t.chunk.take t.nchunks.toNat).drop s.toNat).count (some env.new_chunk) = 0 :=
      List.count_eq_zero.mpr (fun hx => hfresh (hsub _ hx))
    rw [this]
    simp

theorem C18_live_list_after_update_witness :
    ∃ u, __lsm_merge_update_tree ex_env ex_tree ex_heap 3 = some u ∧
      (u.ret = 0 →
        u.tree.nchunks = ex_tree.nchunks - 3 + 1 ∧
        (∀ x ∈ u.tree.chunk.take u.tree.nchunks.toNat, x ≠ none) ∧
        (u.tree.chunk.drop u.tree.nchunks.toNat).take ((3 : Int) - 1).toNat
          = List.replicate ((3 : Int) - 1).toNat none ∧
        u.tree.chunk.take u.tree.nchunks.toNat
          = some ex_env.new_chunk :: (ex_tree.chunk.take ex_tree.nchunks.toNat).drop (3 : Int).toNat ∧
        ((ex_tree.chunk.take ex_tree.nchunks.toNat).drop (3 : Int).toNat).length
          = (ex_tree.nchunks - 3).toNat ∧
        (u.tree.chunk.take u.tree.nchunks.toNat).count (some ex_env.new_chunk) = 1) :=
  C18_live_list_after_update ex_env ex_tree ex_heap 3 (by decide) (by decide) (by decide)
    (by decide) (by decide)

/-! ## More on `__wt_lsm_major_merge` -/

theorem update_tree_last (env : Env) (t : WT_LSM_TREE) (h : Heap) (s : Int) (u : Updated)
    (hu : __lsm_merge_update_tree env t h s = some u) : u.tree.last = t.last := by
  have tail : ∀ t2 : WT_LSM_TREE, t2.last = t.last →
      update_tail env t2 h s = some u → u.tree.last = t.last := by
    intro t2 e hu2
    unfold update_tail at hu2
    split at hu2
    · cases hu2
    · split at hu2
      · cases hu2
      · simp only at hu2
        split at hu2
        · cases hu2
        · split at hu2
          · cases hu2; exact e
          · split at hu2
            · cases hu2
            · cases hu2; exact e
  unfold __lsm_merge_update_tree at hu
  split at hu
  · split at hu
    · cases hu; rfl
    · exact tail (grow_old env t s) rfl hu
  · exact tail t rfl hu

/-- The two ways a call can end with respect to the id counter: through one of
the early returns of lines 97 and 114, with no id allocated and the tree
untouched, or after line 117, with the span at least 2, `dest_id` the
incremented counter and the counter incremented once. -/
theorem major_merge_id (env : Env) (t : WT_LSM_TREE) (h : Heap) (r : Merged)
    (hr : __wt_lsm_major_merge env t h = some r) :
    (r.dest_id = none ∧ r.tree = t ∧ r.heap = h ∧ r.update_ret = none ∧
      (t.nchunks ≤ 2 ∧ r.ret = WT_NOTFOUND ∨
        ∃ p, plan env t h = some p ∧ p.nchunks ≤ 1 ∧ r.ret = 0)) ∨
    (2 < t.nchunks ∧ (∃ p, plan env t h = some p ∧ 2 ≤ p.nchunks) ∧
      r.dest_id = some (WT_ATOMIC_ADD t.last 1) ∧
      r.tree.last = WT_ATOMIC_ADD t.last 1) := by
  unfold __wt_lsm_major_merge at hr
  simp only at hr
  split at hr
  · cases hr
    exact Or.inl ⟨rfl, rfl, rfl, rfl, Or.inl ⟨by omega, rfl⟩⟩
  · rename_i hn
    split at hr
    · cases hr
    · rename_i p hp
      split at hr
      · rename_i h1
        cases hr
        exact Or.inl ⟨rfl, rfl, rfl, rfl, Or.inr ⟨p, hp, h1, rfl⟩⟩
      · rename_i hspan
        refine Or.inr ⟨by omega, ⟨p, hp, by omega⟩, ?_⟩
        split at hr
        · cases hr
          exact ⟨rfl, rfl⟩
        · split at hr
          · cases hr
            exact ⟨rfl, rfl⟩
          · unfold install at hr
            split at hr
            · cases hr
            · rename_i u hu
              split at hr
              · cases hr
              · cases hr
                exact ⟨rfl, update_tree_last env _ h _ u hu⟩

/-- Whenever the tree update of line 176 returns an error, the call has no
value: the error in `ret` is not tested and line 178 stores through the
unassigned `chunk`. -/
theorem update_failure_faults (env : Env) (t : WT_LSM_TREE) (h : Heap) (p : Plan)
    (cp : Copied) (u : Updated) (hn : 2 < t.nchunks) (hp : plan env t h = some p)
    (hs : 1 < p.nchunks)
    (hvm : ¬ (env.verbose_merging.isSome = true ∧ env.verbose_merging.getD 0 ≠ 0))
    (hcp : execute env p.record_count = Except.ok cp)
    (hu : __lsm_merge_update_tree env { t with last := WT_ATOMIC_ADD t.last 1 } h p.nchunks
      = some u)
    (hret : u.ret ≠ 0) :
    __wt_lsm_major_merge env t h = none := by
  have hnc : u.chunkp = none := by
    rcases update_tree_inv env _ h _ u hu with ⟨-, hnc, -⟩ | ⟨h0, -⟩
    · exact hnc
    · exact absurd h0 hret
  unfold __wt_lsm_major_merge
  simp only [hp]
  rw [if_neg (by omega), if_neg (by omega), if_neg hvm]
  simp only [hcp]
  unfold install
  rw [hu]
  simp only [hnc]

/-- The value `ret` holds after line 176 does not reach the caller: whenever
line 176 is reached, the function returns the code of `__wt_lsm_meta_write`. -/
theorem update_ret_overwritten (env : Env) (t : WT_LSM_TREE) (h : Heap) (r : Merged)
    (e : Int) (hr : __wt_lsm_major_merge env t h = some r) (he : r.update_ret = some e) :
    r.ret = env.meta_write := by
  rcases major_merge_inv env t h r hr with ⟨hnone, -⟩ | ⟨p, cp, u, -, -, -, -, hret, -⟩
  · rw [hnone] at he; cases he
  · exact hret

/-- C11 (the code at failing inputs): the allocation of the new chunk, or the
growth of the retired pool, fails with code 12 inside
`__lsm_merge_update_tree` while every other call, the metadata write
included, succeeds.  `__lsm_merge_update_tree` returns 12 without assigning
`*chunkp`; `__wt_lsm_major_merge` does not test the 12 and does not return it:
line 178 stores through the unassigned `chunk` and the call has no value. -/
theorem C11_update_error_not_returned :
    (__lsm_merge_update_tree ex_env_calloc_fail
        { ex_tree with last := WT_ATOMIC_ADD ex_tree.last 1 } ex_heap 3).map
        (fun u => (u.ret, u.chunkp)) = some (12, none) ∧
    __wt_lsm_major_merge ex_env_calloc_fail ex_tree ex_heap = none ∧
    (__lsm_merge_update_tree ex_env_realloc_fail
        { ex_tree with last := WT_ATOMIC_ADD ex_tree.last 1 } ex_heap 3).map
        (fun u => (u.ret, u.chunkp)) = some (12, none) ∧
    __wt_lsm_major_merge ex_env_realloc_fail ex_tree ex_heap = none ∧
    plan ex_env_calloc_fail ex_tree ex_heap = some ⟨3, 354⟩ ∧
    ex_env_calloc_fail.meta_write = 0 ∧ ex_env_realloc_fail.meta_write = 0 := by
  refine ⟨by decide, Option.not_isSome_iff_eq_none.mp (by decide), by decide,
    Option.not_isSome_iff_eq_none.mp (by decide), by decide, by decide, by decide⟩

/-- Inside the range of `int` the wrap-around is the identity. -/
theorem wrap_int_eq (x : Int) (h1 : -2147483648 ≤ x) (h2 : x ≤ 2147483647) :
    wrap_int x = x := by
  unfold wrap_int
  omega

/-- The ids allocated by a sequence of attempts that cannot take the counter
past `INT_MAX` are strictly increasing and all above the counter the sequence
started from. -/
theorem attempts_increasing :
    ∀ (envs : List Env) (t : WT_LSM_TREE) (h : Heap) (ids : List Int),
      -2147483648 ≤ t.last → t.last + envs.length ≤ 2147483647 →
      attempts envs t h = some ids →
      ids.Pairwise (· < ·) ∧ ∀ id ∈ ids, t.last < id := by
  intro envs
  induction envs with
  | nil =>
    intro t h ids _ _ hrun
    unfold attempts at hrun
    cases hrun
    exact ⟨List.Pairwise.nil, fun id hid => by simp at hid⟩
  | cons e es ih =>
    intro t h ids hlo hhi hrun
    simp only [List.length_cons, Nat.cast_add, Nat.cast_one] at hhi
    have hadd : WT_ATOMIC_ADD t.last 1 = t.last + 1 := by
      unfold WT_ATOMIC_ADD
      exact wrap_int_eq _ (by omega) (by omega)
    unfold attempts at hrun
    split at hrun
    · cases hrun
    · rename_i r hr
      split at hrun
      · cases hrun
      · rename_i ids2 hrun2
        cases hrun
        rcases major_merge_id e t h r hr with ⟨hnone, htree, -⟩ | ⟨-, -, hsome, hlast⟩
        · obtain ⟨hpw, hgt⟩ := ih r.tree r.heap ids2 (by rw [htree]; exact hlo)
            (by rw [htree]; omega) hrun2
          rw [htree] at hgt
          rw [hnone]
          simpa using ⟨hpw, hgt⟩
        · rw [hadd] at hsome hlast
          obtain ⟨hpw, hgt⟩ := ih r.tree r.heap ids2 (by omega) (by omega) hrun2
          rw [hsome]
          simp only [Option.toList_some, List.singleton_append, List.pairwise_cons,
            List.mem_cons, forall_eq_or_imp]
          refine ⟨⟨fun id hid => ?_, hpw⟩, by omega, fun id hid => ?_⟩
          · have := hgt id hid; omega
          · have := hgt id hid; omega

/-- C15 (as stated, refuted): the destination id is an `int`.  Two attempts,
one after the other, on a tree whose id counter is one below `INT_MAX` both
reach the execution and install; the first allocates `2147483647`, the second
`-2147483648`: the counter did not go up by 1 and the ids are not
increasing. -/
theorem C15_counterexample :
    attempts [ex_env_span_two 9, ex_env_span_two 10] ex_tree_six_last_ids ex_heap_sealed
      = some [2147483647, -2147483648] ∧
    ¬ ([2147483647, -2147483648] : List Int).Pairwise (· < ·) ∧
    WT_ATOMIC_ADD 2147483647 1 ≠ 2147483647 + 1 := by
  refine ⟨by decide, by decide, by decide⟩

/-- C15 (amended): an attempt either takes one of the early returns of lines
97 and 114 and allocates no id, leaving the counter `last` alone, or it
reaches the execution, which it does whenever the span is at least 2, and
then `last` and `dest_id` are both the incremented counter: `last + 1` below
`INT_MAX`, `INT_MIN` at `INT_MAX`.  So the ids allocated by a sequence of
attempts on one tree that does not take the counter past `INT_MAX` are
strictly increasing and pairwise distinct. -/
theorem C15_destination_ids_increase (env : Env) (t : WT_LSM_TREE) (h : Heap) (r : Merged)
    (envs : List Env) (ids : List Int)
    (hr : __wt_lsm_major_merge env t h = some r) (hrun : attempts envs t h = some ids)
    (hlo : -2147483648 ≤ t.last) (hhi : t.last + envs.length ≤ 2147483647) :
    ((r.dest_id = none ∧ r.tree.last = t.last) ∨
      (2 < t.nchunks ∧ (∃ p, plan env t h = some p ∧ 2 ≤ p.nchunks) ∧
        r.dest_id = some (WT_ATOMIC_ADD t.last 1) ∧ r.tree.last = WT_ATOMIC_ADD t.last 1)) ∧
    (t.nchunks ≤ 2 → r.dest_id = none) ∧
    ((∃ p, plan env t h = some p ∧ p.nchunks ≤ 1) → r.dest_id = none) ∧
    (2 < t.nchunks → (∃ p, plan env t h = some p ∧ 2 ≤ p.nchunks) →
      r.dest_id = some (WT_ATOMIC_ADD t.last 1) ∧ r.tree.last = WT_ATOMIC_ADD t.last 1) ∧
    (t.last < 2147483647 → WT_ATOMIC_ADD t.last 1 = t.last + 1) ∧
    (t.last = 2147483647 → WT_ATOMIC_ADD t.last 1 = -2147483648) ∧
    ids.Pairwise (· < ·) ∧ ids.Nodup ∧ (∀ id ∈ ids, t.last < id) := by
  obtain ⟨hpw, hgt⟩ := attempts_increasing envs t h ids hlo hhi hrun
  have hcase := major_merge_id env t h r hr
  refine ⟨?_, ?_, ?_, ?_, ?_, ?_, hpw, ?_, hgt⟩
  · rcases hcase with ⟨hnone, htree, -⟩ | hB
    · exact Or.inl ⟨hnone, by rw [htree]⟩
    · exact Or.inr hB
  · intro hn
    rcases hcase with ⟨hnone, -⟩ | ⟨hgt2, -⟩
    · exact hnone
    · omega
  · rintro ⟨p, hp, hp1⟩
    rcases hcase with ⟨hnone, -⟩ | ⟨-, ⟨p2, hp2, h2⟩, -⟩
    · exact hnone
    · rw [hp] at hp2
      cases hp2
      omega
  · rintro hn ⟨p, hp, hp2⟩
    rcases hcase with ⟨-, -, -, -, ⟨hle, -⟩ | ⟨p2, hp3, hle, -⟩⟩ | ⟨-, -, hd, hl⟩
    · omega
    · rw [hp] at hp3
      cases hp3
      omega
    · exact ⟨hd, hl⟩
  · intro hlt
    unfold WT_ATOMIC_ADD
    exact wrap_int_eq _ (by omega) (by omega)
  · intro heq
    rw [heq]
    decide
  · exact hpw.imp (fun hlt => ne_of_lt hlt)

theorem C15_destination_ids_increase_witness :
    ∃ r, __wt_lsm_major_merge (ex_env_span_two 9) ex_tree_six ex_heap_sealed = some r ∧
      ((r.dest_id = none ∧ r.tree.last = ex_tree_six.last) ∨
        (2 < ex_tree_six.nchunks ∧
          (∃ p, plan (ex_env_span_two 9) ex_tree_six ex_heap_sealed = some p ∧ 2 ≤ p.nchunks) ∧
          r.dest_id = some (WT_ATOMIC_ADD ex_tree_six.last 1) ∧
          r.tree.last = WT_ATOMIC_ADD ex_tree_six.last 1)) ∧
      (ex_tree_six.nchunks ≤ 2 → r.dest_id = none) ∧
      ((∃ p, plan (ex_env_span_two 9) ex_tree_six ex_heap_sealed = some p ∧ p.nchunks ≤ 1) →
        r.dest_id = none) ∧
      (2 < ex_tree_six.nchunks →
        (∃ p, plan (ex_env_span_two 9) ex_tree_six ex_heap_sealed = some p ∧ 2 ≤ p.nchunks) →
        r.dest_id = some (WT_ATOMIC_ADD ex_tree_six.last 1) ∧
        r.tree.last = WT_ATOMIC_ADD ex_tree_six.last 1) ∧
      (ex_tree_six.last < 2147483647 →
        WT_ATOMIC_ADD ex_tree_six.last 1 = ex_tree_six.last + 1) ∧
      (ex_tree_six.last = 2147483647 → WT_ATOMIC_ADD ex_tree_six.last 1 = -2147483648) ∧
      ([11, 12, 13] : List Int).Pairwise (· < ·) ∧ ([11, 12, 13] : List Int).Nodup ∧
      (∀ id ∈ ([11, 12, 13] : List Int), ex_tree_six.last < id) := by
  have hs : (__wt_lsm_major_merge (ex_env_span_two 9) ex_tree_six ex_heap_sealed).isSome
      = true := by decide
  obtain ⟨r, hm⟩ := Option.isSome_iff_exists.mp hs
  have hrun : attempts [ex_env_span_two 9, ex_env_span_two 10, ex_env_span_two 11]
      ex_tree_six ex_heap_sealed = some [11, 12, 13] := by decide
  exact ⟨r, hm, C15_destination_ids_increase (ex_env_span_two 9) ex_tree_six ex_heap_sealed r
    [ex_env_span_two 9, ex_env_span_two 10, ex_env_span_two 11] [11, 12, 13] hm hrun
    (by decide) (by decide)⟩

/-- The shrink loop stops at the first value, going down, that is 1 or whose
boundary chunk is eligible: every value it passed was above 1 with a boundary
chunk that is not eligible; and it only reads indices below its start. -/
theorem shrink_max (chunk : List (Option Ptr)) (h : Heap) :
    ∀ k : Nat, (∀ i : Nat, i < k → ∃ p, load chunk i = some (some p)) →
      ∃ m, shrink chunk h k = some m ∧
        (∀ k2 : Nat, m < k2 → k2 ≤ k →
          1 < k2 ∧ eligible h chunk ((k2 : Int) - 1) = false) ∧
        (∀ i ∈ shrink_reads chunk h k, 0 ≤ i ∧ i < (k : Int)) := by
  intro k
  induction k with
  | zero =>
    intro _
    exact ⟨0, rfl, fun k2 h1 h2 => by omega, fun i hi => by simp [shrink_reads] at hi⟩
  | succ k ih =>
    intro hk
    unfold shrink shrink_reads
    by_cases hgt : ((k : Int) + 1) > 1
    · rw [if_pos hgt, if_pos hgt]
      obtain ⟨p, hp⟩ := hk k (by omega)
      have hd : deref h chunk ((k : Int) + 1 - 1) = some (h p) := by
        apply deref_of_load
        rw [show (k : Int) + 1 - 1 = k by omega]; exact hp
      simp only [hd]
      by_cases hbad : (!F_ISSET (h p) WT_LSM_CHUNK_ONDISK || decide ((h p).ncursor > 0)) = true
      · rw [if_pos hbad, if_pos hbad]
        obtain ⟨m, hm, hmax, hreads⟩ := ih (fun i hi => hk i (by omega))
        refine ⟨m, hm, fun k2 h1 h2 => ?_, fun i hi => ?_⟩
        · by_cases hk2 : k2 ≤ k
          · exact hmax k2 h1 hk2
          · have hk2e : k2 = k + 1 := by omega
            subst hk2e
            refine ⟨by omega, ?_⟩
            unfold eligible
            rw [show ((k + 1 : Nat) : Int) - 1 = (k : Int) + 1 - 1 by omega, hd]
            simp only [Bool.or_eq_true, Bool.not_eq_true', decide_eq_true_eq] at hbad
            rcases hbad with hb | hb
            · simp [hb]
            · simp only [Bool.and_eq_false_imp, decide_eq_false_iff_not]
              intro _; omega
        · rcases List.mem_cons.mp hi with hi | hi
          · rw [hi]; constructor <;> omega
          · have := hreads i hi
            constructor <;> omega
      · rw [if_neg hbad, if_neg hbad]
        refine ⟨k + 1, rfl, fun k2 h1 h2 => by omega, fun i hi => ?_⟩
        simp only [List.mem_singleton] at hi
        rw [hi]; constructor <;> omega
    · rw [if_neg hgt, if_neg hgt]
      exact ⟨k + 1, rfl, fun k2 h1 h2 => by omega, fun i hi => by simp at hi⟩

/-- The span the planner returns is maximal, and its shrink loop reads only
indices of the live list below `nchunks - 1`. -/
theorem plan_max (env : Env) (t : WT_LSM_TREE) (h : Heap) (ht : live_ok t) :
    ∃ p, plan env t h = some p ∧
      (∀ k : Int, p.nchunks < k →
        k ≤ WT_MIN (Int.tdiv env.hazard_size 2) (t.nchunks - 1) →
        1 < k ∧ eligible h t.chunk (k - 1) = false) ∧
      (∀ i ∈ plan_reads env t h, 0 ≤ i ∧ i < t.nchunks - 1) := by
  have hmin1 : WT_MIN (Int.tdiv env.hazard_size 2) (t.nchunks - 1) ≤ t.nchunks - 1 := by
    unfold WT_MIN; split <;> omega
  unfold plan plan_reads
  simp only
  generalize WT_MIN (Int.tdiv env.hazard_size 2) (t.nchunks - 1) = n0 at hmin1
  unfold shrink_span
  by_cases hgt : n0 > 1
  · rw [if_pos hgt, if_pos hgt]
    obtain ⟨m, hm, hmax, hreads⟩ :=
      shrink_max t.chunk h n0.toNat (fun i hi => live_ok_load t ht i (by omega))
    obtain ⟨m2, hm2, hle, -⟩ :=
      shrink_spec t.chunk h n0.toNat (fun i hi => live_ok_load t ht i (by omega))
    rw [hm] at hm2
    cases hm2
    obtain ⟨rc, hrc⟩ :=
      record_sum_total t.chunk h m (fun i hi => live_ok_load t ht i (by omega))
    rw [hm]
    simp only [Option.map_some', Int.ofNat_eq_coe, Int.toNat_ofNat, hrc]
    refine ⟨_, rfl, fun k hk1 hk2 => ?_, fun i hi => ?_⟩
    · have hk1b : (m : Int) < k := hk1
      have := hmax k.toNat (by omega) (by omega)
      rw [Int.toNat_of_nonneg (by omega)] at this
      exact ⟨by omega, this.2⟩
    · have := hreads i hi
      constructor <;> omega
  · rw [if_neg hgt, if_neg hgt]
    obtain ⟨rc, hrc⟩ :=
      record_sum_total t.chunk h n0.toNat (fun i hi => live_ok_load t ht i (by omega))
    simp only [hrc]
    refine ⟨_, rfl, fun k hk1 hk2 => ?_, fun i hi => by simp at hi⟩
    have hk1b : n0 < k := hk1
    omega

/-- C16: on a well-formed tree the span the planner computes is the largest
`k <= min(hazard_size / 2, nchunks - 1)` with `k <= 1` or the boundary chunk
`chunk[k - 1]` on disk without open cursor; so it is at most the hazard bound
and at most `nchunks - 1`, the shrink loop and the count loop read only
indices inside the live list, and the merge is executed (an id allocated) only
with a span of at least 2. -/
theorem C16_span_is_largest_eligible (env : Env) (t : WT_LSM_TREE) (h : Heap)
    (ht : live_ok t) :
    ∃ p, plan env t h = some p ∧
      p.nchunks ≤ WT_MIN (Int.tdiv env.hazard_size 2) (t.nchunks - 1) ∧
      (p.nchunks ≤ 1 ∨ eligible h t.chunk (p.nchunks - 1) = true) ∧
      (∀ k : Int, p.nchunks < k →
        k ≤ WT_MIN (Int.tdiv env.hazard_size 2) (t.nchunks - 1) →
        ¬ (k ≤ 1 ∨ eligible h t.chunk (k - 1) = true)) ∧
      p.nchunks ≤ Int.tdiv env.hazard_size 2 ∧ p.nchunks ≤ t.nchunks - 1 ∧
      (∀ i ∈ plan_reads env t h, 0 ≤ i ∧ i < t.nchunks) ∧
      (∀ i : Int, 0 ≤ i → i < p.nchunks → i < t.nchunks) ∧
      (∀ r, __wt_lsm_major_merge env t h = some r → r.dest_id ≠ none → 2 ≤ p.nchunks) := by
  obtain ⟨p, hp, hle1, hle2, hel⟩ := plan_spec env t h ht
  obtain ⟨p2, hp2, hmax, hreads⟩ := plan_max env t h ht
  rw [hp] at hp2
  cases hp2
  refine ⟨p, hp, ?_, ?_, ?_, hle2, hle1, ?_, ?_, ?_⟩
  · unfold WT_MIN; split <;> omega
  · by_cases h1 : p.nchunks ≤ 1
    · exact Or.inl h1
    · exact Or.inr (hel (by omega))
  · intro k hk1 hk2 hcon
    obtain ⟨hgt, hne⟩ := hmax k hk1 hk2
    rcases hcon with hc | hc
    · omega
    · rw [hne] at hc; cases hc
  · intro i hi
    have := hreads i hi
    constructor <;> omega
  · intro i _ hi
    omega
  · intro r hr hid
    rcases major_merge_id env t h r hr with ⟨hnone, -⟩ | ⟨-, ⟨p3, hp3, h2⟩, -⟩
    · exact absurd hnone hid
    · rw [hp] at hp3
      cases hp3
      exact h2

theorem C16_span_is_largest_eligible_witness :
    ∃ p, plan ex_env ex_tree_unwritten ex_heap = some p ∧
      p.nchunks ≤ WT_MIN (Int.tdiv ex_env.hazard_size 2) (ex_tree_unwritten.nchunks - 1) ∧
      (p.nchunks ≤ 1 ∨ eligible ex_heap ex_tree_unwritten.chunk (p.nchunks - 1) = true) ∧
      (∀ k : Int, p.nchunks < k →
        k ≤ WT_MIN (Int.tdiv ex_env.hazard_size 2) (ex_tree_unwritten.nchunks - 1) →
        ¬ (k ≤ 1 ∨ eligible ex_heap ex_tree_unwritten.chunk (k - 1) = true)) ∧
      p.nchunks ≤ Int.tdiv ex_env.hazard_size 2 ∧ p.nchunks ≤ ex_tree_unwritten.nchunks - 1 ∧
      (∀ i ∈ plan_reads ex_env ex_tree_unwritten ex_heap, 0 ≤ i ∧ i < ex_tree_unwritten.nchunks) ∧
      (∀ i : Int, 0 ≤ i → i < p.nchunks → i < ex_tree_unwritten.nchunks) ∧
      (∀ r, __wt_lsm_major_merge ex_env ex_tree_unwritten ex_heap = some r →
        r.dest_id ≠ none → 2 ≤ p.nchunks) :=
  C16_span_is_largest_eligible ex_env ex_tree_unwritten ex_heap (by decide)

/-- The accumulator of the count loop is the sum of the counts of the first
`n` chunks, modulo `2^64`. -/
theorem record_sum_eq (chunk : List (Option Ptr)) (h : Heap) :
    ∀ (n rc : Nat), record_sum chunk h n = some rc →
      rc = count_sum h (chunk.take n) % 2 ^ 64 := by
  intro n
  induction n with
  | zero =>
    intro rc hrc
    unfold record_sum at hrc
    cases hrc
    simp [count_sum]
  | succ n ih =>
    intro rc hrc
    unfold record_sum at hrc
    split at hrc
    · rename_i s c hs hc
      cases hrc
      have hsum := ih s hs
      unfold deref at hc
      split at hc
      · rename_i p hl
        cases hc
        unfold load at hl
        rw [if_pos (by omega), Int.toNat_ofNat, List.get?_eq_getElem?] at hl
        have htake : count_sum h (chunk.take (n + 1))
            = count_sum h (chunk.take n) + (h p).count := by
          unfold count_sum
          rw [List.take_succ, hl]
          simp
        rw [htake, hsum, Nat.add_mod, Nat.mod_mod, ← Nat.add_mod]
      · cases hc
    · cases hrc

theorem plan_record_count (env : Env) (t : WT_LSM_TREE) (h : Heap) (p : Plan)
    (hp : plan env t h = some p) :
    p.record_count = count_sum h (t.chunk.take p.nchunks.toNat) % 2 ^ 64 := by
  unfold plan at hp
  simp only at hp
  split at hp
  · cases hp
  · rename_i n hn
    split at hp
    · cases hp
    · rename_i rc hrc
      cases hp
      exact record_sum_eq t.chunk h n.toNat rc hrc

theorem pool_before_fill_with_last (env : Env) (t : WT_LSM_TREE) (s l : Int) :
    (pool_before_fill env { t with last := l } s).old_chunks
      = (pool_before_fill env t s).old_chunks := by
  unfold pool_before_fill
  simp only
  split <;> rfl

/-- A successful update retires exactly the chunks of the span: the new pool
is the pool met by the loop with `chunk[0 .. s - 1]` placed in its vacant
slots. -/
theorem update_tree_places (env : Env) (t : WT_LSM_TREE) (h : Heap) (s : Int) (u : Updated)
    (hsz : 0 < env.chunk_sz) (ht : live_ok t) (h1 : 1 ≤ s) (h2 : s ≤ t.nchunks)
    (hpool : t.nold_chunks = t.old_chunks.length) (hav : t.old_avail = vacant t)
    (hu : __lsm_merge_update_tree env t h s = some u) (hret : u.ret = 0) :
    u.tree.old_chunks
      = place_in_vacant (pool_before_fill env t s).old_chunks (t.chunk.take s.toNat) := by
  have hre := update_ret_zero_realloc env t h s u hu hret
  rw [update_tree_eq_tail env t h s hre] at hu
  obtain ⟨hc, -, -, -, -, hlen, -, -⟩ :=
    pool_before_fill_spec env t s hsz hpool hav (by omega)
  obtain ⟨f, -, -, hf, -, -, ho, -⟩ := update_tail_inv env (pool_before_fill env t s) h s u hu
  obtain ⟨s', rfl⟩ := Int.eq_ofNat_of_zero_le (by omega : 0 ≤ s)
  have hsl : s' ≤ t.chunk.length := by have := ht.1; omega
  obtain ⟨f2, hf2, hplace⟩ :=
    fill_gaps_place (pool_before_fill env t s').chunk s' (by rw [hc]; exact hsl)
      (pool_before_fill env t s').nold_chunks.toNat 0 0
      (pool_before_fill env t s').old_chunks (pool_before_fill env t s').old_avail (by omega)
  have hf' : fill_gaps (pool_before_fill env t s').chunk (s' : Int)
      (pool_before_fill env t s').nold_chunks.toNat 0 ((0 : Nat) : Int)
      (pool_before_fill env t s').old_chunks (pool_before_fill env t s').old_avail = some f := hf
  rw [hf'] at hf2
  cases hf2
  rw [List.take_zero, List.nil_append, List.drop_zero, List.drop_zero, hc] at hplace
  rw [ho, hplace, Int.toNat_ofNat]

/-- C14 (as stated, refuted): `record_count` is a `uint64_t`.  The three chunks
of the span hold `2^64 - 1`, 2 and 5 records: the planner selects all three,
the sum of their counts is `2^64 + 6` and `record_count` is 6. -/
theorem C14_counterexample :
    (plan ex_env ex_tree ex_heap_wide).map (fun p => (p.nchunks, p.record_count))
      = some (3, 6) ∧
    count_sum ex_heap_wide (ex_tree.chunk.take 3) = 18446744073709551622 ∧
    (6 : Nat) ≠ count_sum ex_heap_wide (ex_tree.chunk.take 3) := by
  refine ⟨by decide, by decide, by decide⟩

/-- C14 (amended): on a well-formed tree the planner returns, and its
`record_count` is the sum of the `count` fields of exactly the first `span`
chunks modulo `2^64` (a `uint64_t` sum), hence the sum itself whenever the
sum fits in 64 bits; the span ends before the newest chunk, whose count is
not included; and a successful install retires exactly these chunks. -/
theorem C14_record_count_sums_the_span (env : Env) (t : WT_LSM_TREE) (h : Heap)
    (hsz : 0 < env.chunk_sz) (ht : live_ok t)
    (hpool : t.nold_chunks = t.old_chunks.length) (hav : t.old_avail = vacant t) :
    ∃ p, plan env t h = some p ∧
      p.record_count = count_sum h (t.chunk.take p.nchunks.toNat) % 2 ^ 64 ∧
      (count_sum h (t.chunk.take p.nchunks.toNat) < 2 ^ 64 →
        p.record_count = count_sum h (t.chunk.take p.nchunks.toNat)) ∧
      p.nchunks ≤ t.nchunks - 1 ∧
      (∀ r, __wt_lsm_major_merge env t h = some r → r.update_ret = some 0 →
        r.tree.old_chunks
          = place_in_vacant (pool_before_fill env t p.nchunks).old_chunks
              (t.chunk.take p.nchunks.toNat)) := by
  obtain ⟨p, hp, hle, -⟩ := plan_spec env t h ht
  have hrc := plan_record_count env t h p hp
  refine ⟨p, hp, hrc, fun hlt => by rw [hrc, Nat.mod_eq_of_lt hlt], hle, ?_⟩
  intro r hr hur
  rcases major_merge_inv env t h r hr with
    ⟨hnone, -⟩ | ⟨p2, cp, u, hp2, hspan, -, hupd, -, htree, hret, -, -⟩
  · rw [hnone] at hur; cases hur
  · rw [hp] at hp2
    cases hp2
    rw [hret] at hur
    have hu0 : u.ret = 0 := Option.some.inj hur
    have := update_tree_places env { t with last := WT_ATOMIC_ADD t.last 1 } h p.nchunks u hsz ht
      (by omega) (by show p.nchunks ≤ t.nchunks; omega) hpool hav hupd hu0
    rw [htree, this, pool_before_fill_with_last]

theorem C14_record_count_sums_the_span_witness :
    ∃ p, plan ex_env ex_tree_vacant ex_heap = some p ∧
      p.record_count = count_sum ex_heap (ex_tree_vacant.chunk.take p.nchunks.toNat) % 2 ^ 64 ∧
      (count_sum ex_heap (ex_tree_vacant.chunk.take p.nchunks.toNat) < 2 ^ 64 →
        p.record_count = count_sum ex_heap (ex_tree_vacant.chunk.take p.nchunks.toNat)) ∧
      p.nchunks ≤ ex_tree_vacant.nchunks - 1 ∧
      (∀ r, __wt_lsm_major_merge ex_env ex_tree_vacant ex_heap = some r →
        r.update_ret = some 0 →
        r.tree.old_chunks
          = place_in_vacant (pool_before_fill ex_env ex_tree_vacant p.nchunks).old_chunks
              (ex_tree_vacant.chunk.take p.nchunks.toNat)) :=
  C14_record_count_sums_the_span ex_env ex_tree_vacant ex_heap (by decide) (by decide)
    (by decide) (by decide)

theorem first_error_append (a b : List Int) :
    first_error (a ++ b) = (first_error a).or (first_error b) := by
  induction a with
  | nil => rfl
  | cons e es ih =>
    simp only [List.cons_append, first_error]
    split
    · rfl
    · exact ih

theorem first_error_ne_zero (l : List Int) (e : Int) (h : first_error l = some e) : e ≠ 0 := by
  induction l with
  | nil => cases h
  | cons x xs ih =>
    unfold first_error at h
    split at h
    · rename_i hx
      cases h
      exact hx
    · exact ih h

theorem cleanup_keeps_error (env : Env) (src dest bloom : Bool) (e : Int) (he : e ≠ 0) :
    cleanup env src dest bloom e = e := by
  have ht : ∀ a, WT_TRET e a = e := by
    intro a
    unfold WT_TRET
    rw [if_neg (fun hc => he hc.2)]
  unfold cleanup
  cases src <;> cases dest <;> cases bloom <;> simp [ht]

theorem copy_loop_steps (env : Env) (bloom : Bool) :
    ∀ (l : List Item) (n : Nat),
      copy_loop env bloom l n =
        match first_error ((l.map (item_steps bloom)).flatten) with
        | some e => Flow.err e
        | none => Flow.done env.next_end (n + l.length) := by
  intro l
  induction l with
  | nil => intro n; rfl
  | cons it rest ih =>
    intro n
    unfold copy_loop
    rw [List.map_cons, List.flatten_cons, first_error_append, ih (n + 1)]
    cases bloom <;>
      simp only [item_steps, first_error, List.cons_append, List.nil_append, if_true,
        Bool.false_eq_true, if_false, List.length_cons, true_and, false_and] <;>
      split_ifs <;> simp_all
    all_goals rw [Nat.add_right_comm, Nat.add_assoc]

theorem tret_fold (l : List Int) :
    ∀ e : Int, l.foldl WT_TRET e = if e ≠ 0 then e else (first_error l).getD 0 := by
  induction l with
  | nil =>
    intro e
    by_cases he : e = 0 <;> simp [he, first_error]
  | cons a l ih =>
    intro e
    rw [List.foldl_cons, ih]
    simp only [first_error, WT_TRET]
    by_cases he : e = 0 <;> by_cases ha : a = 0 <;> simp [he, ha]

theorem notfound_ok_cases (r : Int) :
    (r ≠ 0 ∧ r ≠ WT_NOTFOUND ∧ WT_ERR_NOTFOUND_OK r = none) ∨
    ((if r = WT_NOTFOUND then 0 else r) = 0 ∧ WT_ERR_NOTFOUND_OK r = some 0) := by
  unfold WT_ERR_NOTFOUND_OK
  by_cases hr0 : r = 0
  · right
    subst hr0
    refine ⟨by split <;> rfl, by simp⟩
  · by_cases hrn : r = WT_NOTFOUND
    · right
      exact ⟨by rw [if_pos hrn], by rw [if_pos hr0, if_pos hrn]⟩
    · left
      exact ⟨hr0, hrn, by rw [if_pos hr0, if_neg hrn]⟩

theorem finish_steps (env : Env) (bloom : Bool) (r : Int) (n : Nat)
    (hv : env.verbose_bloom = none) :
    finish env bloom r n =
      match first_error ([if r = WT_NOTFOUND then 0 else r, env.src_close, env.dest_close] ++
          (if bloom then [env.bloom_finalize, env.bloom_close] else [])) with
      | some e => Except.error e
      | none => Except.ok ⟨n, false⟩ := by
  unfold finish verbose_ret
  rw [hv]
  simp only [Option.getD_none, Option.isSome_none, Bool.false_eq_true, false_and, if_false]
  rcases notfound_ok_cases r with ⟨hr0, hrn, hnf⟩ | ⟨hz, hnf⟩
  · rw [hnf]
    simp only [List.cons_append, first_error, if_neg hrn, if_pos hr0]
    rw [cleanup_keeps_error env true true bloom r hr0]
  · rw [hnf]
    simp only [List.cons_append, first_error, hz, ne_eq, not_true_eq_false, if_false]
    have hfold : (if bloom = true then
          WT_TRET (WT_TRET (WT_TRET (WT_TRET 0 env.src_close) env.dest_close)
            env.bloom_finalize) env.bloom_close
        else WT_TRET (WT_TRET 0 env.src_close) env.dest_close)
        = (first_error ([env.src_close, env.dest_close] ++
            (if bloom then [env.bloom_finalize, env.bloom_close] else []))).getD 0 := by
      have hfl : ∀ l : List Int, l.foldl WT_TRET 0 = (first_error l).getD 0 := by
        intro l
        rw [tret_fold l 0, if_neg (by simp)]
      cases bloom
      · exact hfl [env.src_close, env.dest_close]
      · exact hfl [env.src_close, env.dest_close, env.bloom_finalize, env.bloom_close]
    rw [hfold]
    simp only [List.cons_append, List.nil_append, first_error]
    cases hfe : first_error ([env.src_close, env.dest_close] ++
            (if bloom then [env.bloom_finalize, env.bloom_close] else [])) with
    | none =>
      simp only [List.cons_append, List.nil_append, first_error] at hfe
      rw [hfe]
      cases bloom <;> simp
    | some e =>
      have he := first_error_ne_zero _ e hfe
      simp only [List.cons_append, List.nil_append, first_error] at hfe
      rw [hfe]
      simp only [Option.getD_some, ne_eq, he, not_false_eq_true, if_true]
      rw [cleanup_keeps_error env false false _ e he]

theorem first_error_cons_zero (l : List Int) : first_error (0 :: l) = first_error l := by
  simp [first_error]

theorem first_error_cons_ne (e : Int) (l : List Int) (he : e ≠ 0) :
    first_error (e :: l) = some e := by
  simp [first_error, he]

theorem copy_phase_steps (env : Env) (bloom : Bool) (hv : env.verbose_bloom = none) :
    copy_phase env bloom =
      match first_error ([env.open_src, env.init_merge, env.create_chunk, env.open_dest] ++
          ((env.stream.map (item_steps bloom)).flatten ++
            ([if env.next_end = WT_NOTFOUND then 0 else env.next_end, env.src_close,
                env.dest_close] ++
              (if bloom then [env.bloom_finalize, env.bloom_close] else [])))) with
      | some e => Except.error e
      | none => Except.ok ⟨env.stream.length, false⟩ := by
  unfold copy_phase
  by_cases h1 : env.open_src = 0
  · by_cases h2 : env.init_merge = 0
    · by_cases h3 : env.create_chunk = 0
      · by_cases h4 : env.open_dest = 0
        · rw [if_neg (by simp [h1]), if_neg (by simp [h2]), if_neg (by simp [h3]),
            if_neg (by simp [h4]), h1, h2, h3, h4]
          simp only [List.cons_append, List.nil_append, first_error_cons_zero]
          rw [copy_loop_steps, first_error_append]
          cases hfe : first_error ((env.stream.map (item_steps bloom)).flatten) with
          | some e =>
            have he := first_error_ne_zero _ e hfe
            simp only [Option.or_some]
            rw [cleanup_keeps_error env true true bloom e he]
          | none =>
            simp only [Option.none_or, Nat.zero_add]
            rw [finish_steps env bloom env.next_end env.stream.length hv]
            rfl
        · rw [if_neg (by simp [h1]), if_neg (by simp [h2]), if_neg (by simp [h3]),
            if_pos h4, h1, h2, h3]
          simp only [List.cons_append, List.nil_append, first_error_cons_zero,
            first_error_cons_ne _ _ h4]
          rw [cleanup_keeps_error _ _ _ _ _ h4]
      · rw [if_neg (by simp [h1]), if_neg (by simp [h2]), if_pos h3, h1, h2]
        simp only [List.cons_append, List.nil_append, first_error_cons_zero,
          first_error_cons_ne _ _ h3]
        rw [cleanup_keeps_error _ _ _ _ _ h3]
    · rw [if_neg (by simp [h1]), if_pos h2, h1]
      simp only [List.cons_append, List.nil_append, first_error_cons_zero,
        first_error_cons_ne _ _ h2]
      rw [cleanup_keeps_error _ _ _ _ _ h2]
  · rw [if_pos h1]
    simp only [List.cons_append, List.nil_append, first_error_cons_ne _ _ h1]
    rw [cleanup_keeps_error _ _ _ _ _ h1]

/-- With the verbose category off, the execution phase (lines 122-173) fails
with the code of its first failing step, and otherwise reaches line 175 with
`insert_count` the number of records the cursor delivered. -/
theorem execute_steps (env : Env) (rc : Nat) (hv : env.verbose_bloom = none) :
    execute env rc =
      match first_error (exec_steps env rc) with
      | some e => Except.error e
      | none => Except.ok ⟨env.stream.length, false⟩ := by
  unfold execute exec_steps
  by_cases hrc : rc = 0
  · have hn : ¬ (rc ≠ 0) := by simp [hrc]
    have hd : decide (rc ≠ 0) = false := by simp [hrc]
    simp only [if_neg hn, hd]
    rw [copy_phase_steps env false hv]
    simp only [Bool.false_eq_true, if_false, List.nil_append, List.append_nil,
      List.append_assoc, List.cons_append]
  · have hd : decide (rc ≠ 0) = true := by simp [hrc]
    simp only [if_pos hrc, hd]
    by_cases h1 : env.scr_alloc = 0
    · by_cases h2 : env.bloom_name = 0
      · by_cases h3 : env.bloom_create = 0
        · have e1 : ¬ env.scr_alloc ≠ 0 := by simp [h1]
          have e2 : ¬ env.bloom_name ≠ 0 := by simp [h2]
          have e3 : ¬ env.bloom_create ≠ 0 := by simp [h3]
          simp only [if_neg e1, if_neg e2, if_neg e3]
          rw [copy_phase_steps env true hv, h1, h2, h3]
          simp only [if_true, List.nil_append, List.append_nil,
            List.append_assoc, List.cons_append, first_error_cons_zero]
        · have e1 : ¬ env.scr_alloc ≠ 0 := by simp [h1]
          have e2 : ¬ env.bloom_name ≠ 0 := by simp [h2]
          simp only [if_neg e1, if_neg e2, if_pos h3]
          rw [h1, h2]
          simp only [List.cons_append, List.nil_append, List.append_assoc,
            first_error_cons_zero, first_error_cons_ne _ _ h3]
          rw [cleanup_keeps_error _ _ _ _ _ h3]
      · have e1 : ¬ env.scr_alloc ≠ 0 := by simp [h1]
        simp only [if_neg e1, if_pos h2]
        rw [h1]
        simp only [List.cons_append, List.nil_append, List.append_assoc,
          first_error_cons_zero, first_error_cons_ne _ _ h2]
        rw [cleanup_keeps_error _ _ _ _ _ h2]
    · simp only [if_pos h1]
      simp only [List.cons_append, List.nil_append, List.append_assoc,
        first_error_cons_ne _ _ h1]

/-- With the verbose category off: an attempt that reaches the execution
phase and has a failing step there returns the code of the first failing step
and leaves the tree as it was but for the id counter; end-of-stream is no
failure, and without a failing step the attempt goes on to the install. -/
theorem execution_failure_returned (env : Env) (t : WT_LSM_TREE) (h : Heap) (r : Merged)
    (hv : env.verbose_bloom = none) (hvm : env.verbose_merging = none)
    (hr : __wt_lsm_major_merge env t h = some r) (hid : r.dest_id ≠ none) :
    ∃ p, plan env t h = some p ∧
      (∀ e, first_error (exec_steps env p.record_count) = some e →
        r.ret = e ∧ e ≠ 0 ∧ r.update_ret = none ∧
        r.tree = { t with last := WT_ATOMIC_ADD t.last 1 } ∧ r.heap = h) ∧
      (first_error (exec_steps env p.record_count) = none → r.update_ret ≠ none) := by
  unfold __wt_lsm_major_merge at hr
  simp only at hr
  split at hr
  · cases hr
    exact absurd rfl hid
  · split at hr
    · cases hr
    · rename_i p hp
      split at hr
      · cases hr
        exact absurd rfl hid
      · rw [hvm] at hr
        simp only [Option.isSome_none, Bool.false_eq_true, false_and, if_false] at hr
        rw [execute_steps env p.record_count hv] at hr
        refine ⟨p, hp, ?_, ?_⟩
        · intro e he
          rw [he] at hr
          simp only at hr
          cases hr
          exact ⟨rfl, first_error_ne_zero _ e he, rfl, rfl, rfl⟩
        · intro he
          rw [he] at hr
          simp only at hr
          unfold install at hr
          split at hr
          · cases hr
          · split at hr
            · cases hr
            · cases hr
              simp

/-- C12 (the code at a failing input): with the `lsm` verbose category on,
the cursor delivers two records and then fails with code 5 (not
`WT_NOTFOUND`); line 159 overwrites `ret` with the 0 of `__wt_verbose` before
line 162 tests it, so the merge goes on, installs (the live list shrinks from
4 to 2 chunks, `dsk_gen` goes from 5 to 6) and returns 0.  With the category
off the same failure is returned and the tree keeps its shape. -/
theorem C12_cursor_error_lost_when_verbose :
    ex_env_cursor_fails_verbose.next_end = 5 ∧ (5 : Int) ≠ WT_NOTFOUND ∧
    ex_env_cursor_fails_verbose.verbose_bloom = some 0 ∧
    (__wt_lsm_major_merge ex_env_cursor_fails_verbose ex_tree ex_heap).map
        (fun r => (r.ret, r.update_ret, r.tree.nchunks, r.tree.dsk_gen))
      = some (0, some 0, 2, 6) ∧
    (ex_tree.nchunks, ex_tree.dsk_gen) = (4, 5) ∧
    (__wt_lsm_major_merge { ex_env_cursor_fails_verbose with verbose_bloom := none }
        ex_tree ex_heap).map
        (fun r => (r.ret, r.update_ret, r.tree.nchunks, r.tree.dsk_gen))
      = some (5, none, 4, 5) := by
  refine ⟨by decide, by decide, by decide, by decide, by decide, by decide⟩

end LsmMerge
